import Mathlib

/-!
Verification of the reconciliation core of the pangolin-ingress-controller
repository.  The Go sources (`internal/util/naming.go`,
`internal/controller/ingress_controller.go`) are shallowly embedded as
executable Lean definitions: Go strings are modelled at the rune/char level
(`String` / `List Char`), Go `int32` values as mathematical integers with an
explicit two's-complement truncation where the source converts, and the
Kubernetes object store as an explicit list of objects threaded through the
reconciliation functions together with a log of the operations performed.
-/

namespace PIC

/-! ## Character-level string helpers (internal/util/naming.go) -/

/-- ASCII case folding used by `strings.ToLower` (the sources only ever lower
ASCII data; the Unicode cases of Go's folding are outside every claim). -/
def goToLower (c : Char) : Char :=
  if 65 ≤ c.toNat ∧ c.toNat ≤ 90 then Char.ofNat (c.toNat + 32) else c

/-- The character class kept by `sanitizeName`: `a`-`z`, `0`-`9` and `-`. -/
def isAllowedChar (c : Char) : Bool :=
  (97 ≤ c.toNat && c.toNat ≤ 122) || (48 ≤ c.toNat && c.toNat ≤ 57) || c.toNat == 45

/-- One step of the invalid-character replacement loop of `sanitizeName`. -/
def replaceInvalid (c : Char) : Char :=
  if isAllowedChar c then c else '-'

/-- `strings.Trim(name, "-")`: drop leading and trailing hyphens. -/
def trimHyphens (l : List Char) : List Char :=
  ((l.dropWhile (· == '-')).reverse.dropWhile (· == '-')).reverse

/-- `strings.Contains(name, "--")`. -/
def containsDD : List Char → Bool
  | a :: b :: rest => (a == '-' && b == '-') || containsDD (b :: rest)
  | _ => false

/-- `strings.ReplaceAll(name, "--", "-")`: non-overlapping left-to-right
replacement of hyphen pairs by single hyphens. -/
def replDD : List Char → List Char
  | a :: b :: rest =>
      if a == '-' && b == '-' then '-' :: replDD rest else a :: replDD (b :: rest)
  | l => l

/-- The `for strings.Contains(name, "--")` loop of `sanitizeName`.  Each
iteration strictly shortens the list, so `l.length` fuel always suffices
(proved below); the fuelled form keeps the definition structurally
terminating. -/
def collapseDD : Nat → List Char → List Char
  | 0, l => l
  | fuel + 1, l => if containsDD l then collapseDD fuel (replDD l) else l

/-- `sanitizeName` from internal/util/naming.go. -/
def sanitizeName (s : String) : String :=
  let lowered := s.data.map goToLower
  let replaced := lowered.map replaceInvalid
  let trimmed := trimHyphens replaced
  String.mk (collapseDD trimmed.length trimmed)

/-! ## SHA-256 (crypto/sha256), over byte lists -/

/-- Truncation to 32 bits. -/
def w32 (n : Nat) : Nat := n % 4294967296

/-- 32-bit rotate right. -/
def rotr32 (k w : Nat) : Nat := w32 ((w >>> k) ||| (w <<< (32 - k)))

def shaCh (x y z : Nat) : Nat := (x &&& y) ^^^ ((x ^^^ 4294967295) &&& z)

def shaMaj (x y z : Nat) : Nat := (x &&& y) ^^^ (x &&& z) ^^^ (y &&& z)

def bsig0 (x : Nat) : Nat := rotr32 2 x ^^^ rotr32 13 x ^^^ rotr32 22 x

def bsig1 (x : Nat) : Nat := rotr32 6 x ^^^ rotr32 11 x ^^^ rotr32 25 x

def ssig0 (x : Nat) : Nat := rotr32 7 x ^^^ rotr32 18 x ^^^ (x >>> 3)

def ssig1 (x : Nat) : Nat := rotr32 17 x ^^^ rotr32 19 x ^^^ (x >>> 10)

/-- The 64 SHA-256 round constants (decimal). -/
def sha256K : List Nat :=
  [1116352408, 1899447441, 3049323471, 3921009573, 961987163,
   1508970993, 2453635748, 2870763221, 3624381080, 310598401,
   607225278, 1426881987, 1925078388, 2162078206, 2614888103,
   3248222580, 3835390401, 4022224774, 264347078, 604807628,
   770255983, 1249150122, 1555081692, 1996064986, 2554220882,
   2821834349, 2952996808, 3210313671, 3336571891, 3584528711,
   113926993, 338241895, 666307205, 773529912, 1294757372,
   1396182291, 1695183700, 1986661051, 2177026350, 2456956037,
   2730485921, 2820302411, 3259730800, 3345764771, 3516065817,
   3600352804, 4094571909, 275423344, 430227734, 506948616,
   659060556, 883997877, 958139571, 1322822218, 1537002063,
   1747873779, 1955562222, 2024104815, 2227730452, 2361852424,
   2428436474, 2756734187, 3204031479, 3329325298]

/-- The eight working registers of the compression function. -/
structure Hash8 where
  a : Nat
  b : Nat
  c : Nat
  d : Nat
  e : Nat
  f : Nat
  g : Nat
  h : Nat
deriving DecidableEq, Repr

def sha256Init : Hash8 :=
  ⟨0x6a09e667, 0xbb67ae85, 0x3c6ef372, 0xa54ff53a,
   0x510e527f, 0x9b05688c, 0x1f83d9ab, 0x5be0cd19⟩

/-- Merkle–Damgård padding: append `0x80`, zeros, and the 64-bit big-endian
bit length, reaching a multiple of 64 bytes. -/
def sha256Pad (msg : List Nat) : List Nat :=
  let len := msg.length
  let bitLen := len * 8
  let r := (len + 1) % 64
  let zeros := if r ≤ 56 then 56 - r else 120 - r
  msg ++ 0x80 :: List.replicate zeros 0 ++
    ((List.range 8).map fun i => (bitLen >>> ((7 - i) * 8)) % 256)

/-- Split into 64-byte blocks (fuelled; fuel `l.length` always suffices). -/
def chunks64 : Nat → List Nat → List (List Nat)
  | 0, _ => []
  | _ + 1, [] => []
  | fuel + 1, l => l.take 64 :: chunks64 fuel (l.drop 64)

/-- Big-endian bytes to 32-bit words. -/
def toWords : List Nat → List Nat
  | b0 :: b1 :: b2 :: b3 :: rest =>
      (((b0 * 256 + b1) * 256 + b2) * 256 + b3) :: toWords rest
  | _ => []

/-- Extend 16 words to the 64-word message schedule. -/
def schedule (ws : List Nat) : List Nat :=
  (List.range 48).foldl
    (fun w _ =>
      let n := w.length
      w ++ [w32 (ssig1 (w.getD (n - 2) 0) + w.getD (n - 7) 0 +
                 ssig0 (w.getD (n - 15) 0) + w.getD (n - 16) 0)])
    ws

/-- One compression round. -/
def shaRound (s : Hash8) (k w : Nat) : Hash8 :=
  let t1 := w32 (s.h + bsig1 s.e + shaCh s.e s.f s.g + k + w)
  let t2 := w32 (bsig0 s.a + shaMaj s.a s.b s.c)
  ⟨w32 (t1 + t2), s.a, s.b, s.c, w32 (s.d + t1), s.e, s.f, s.g⟩

/-- Compress one 64-byte block into the running hash. -/
def compressBlock (h0 : Hash8) (block : List Nat) : Hash8 :=
  let w := schedule (toWords block)
  let r := (sha256K.zip w).foldl (fun s kw => shaRound s kw.1 kw.2) h0
  ⟨w32 (h0.a + r.a), w32 (h0.b + r.b), w32 (h0.c + r.c), w32 (h0.d + r.d),
   w32 (h0.e + r.e), w32 (h0.f + r.f), w32 (h0.g + r.g), w32 (h0.h + r.h)⟩

/-- A 32-bit word as four big-endian bytes. -/
def wordBytes (w : Nat) : List Nat :=
  [(w >>> 24) % 256, (w >>> 16) % 256, (w >>> 8) % 256, w % 256]

/-- SHA-256 digest (32 bytes) of a byte list. -/
def sha256 (msg : List Nat) : List Nat :=
  let padded := sha256Pad msg
  let fin := (chunks64 padded.length padded).foldl compressBlock sha256Init
  wordBytes fin.a ++ wordBytes fin.b ++ wordBytes fin.c ++ wordBytes fin.d ++
    wordBytes fin.e ++ wordBytes fin.f ++ wordBytes fin.g ++ wordBytes fin.h

/-- UTF-8 encoding of a single scalar value (Go strings are UTF-8 byte
sequences; `[]byte(s)` yields these bytes). -/
def utf8Bytes (c : Char) : List Nat :=
  let n := c.toNat
  if n < 0x80 then [n]
  else if n < 0x800 then
    [0xc0 ||| (n >>> 6), 0x80 ||| (n &&& 0x3f)]
  else if n < 0x10000 then
    [0xe0 ||| (n >>> 12), 0x80 ||| ((n >>> 6) &&& 0x3f), 0x80 ||| (n &&& 0x3f)]
  else
    [0xf0 ||| (n >>> 18), 0x80 ||| ((n >>> 12) &&& 0x3f),
     0x80 ||| ((n >>> 6) &&& 0x3f), 0x80 ||| (n &&& 0x3f)]

/-- `[]byte(s)` for a Go string. -/
def strBytes (s : String) : List Nat :=
  s.data.foldr (fun c acc => utf8Bytes c ++ acc) []

/-- `encoding/hex` lowercase digits. -/
def hexDigits : List Char := "0123456789abcdef".data

def hexDigit (n : Nat) : Char := hexDigits.getD n '0'

/-- `hex.EncodeToString`. -/
def hexBytes (bs : List Nat) : List Char :=
  bs.foldr (fun b acc => hexDigit (b / 16) :: hexDigit (b % 16) :: acc) []

/-- The 8-hex-character fingerprint of `GenerateName`: hex encoding of the
first 4 bytes of `SHA-256(namespace ++ "/" ++ ingressName ++ "/" ++ host)`. -/
def shortHashOf (ns iname host : String) : String :=
  String.mk (hexBytes ((sha256 (strBytes (ns ++ "/" ++ iname ++ "/" ++ host))).take 4))

/-- `truncatedIngress` of the truncation branch of `GenerateName`:
`ingressName[:availableLen]` when the name is longer than the budget. -/
def truncIngressName (iname : String) (availableLen : Int) : String :=
  if (iname.length : Int) > availableLen then
    String.mk (iname.data.take availableLen.toNat)
  else iname

/-- `GenerateName` from internal/util/naming.go.  Lengths, indexing and
truncation are modelled at the character level (the Go code is byte-based;
the two coincide on ASCII data, which is all any claim exercises).
`availableLen = 63 - prefixLen - suffixLen` with
`prefixLen = len("pic") + 1 + len(namespace) + 1` and
`suffixLen = len(shortHash) + 1`, as in the source. -/
def GenerateName (ns iname host : String) : String :=
  let shortHash := shortHashOf ns iname host
  let name1 := sanitizeName ("pic-" ++ ns ++ "-" ++ iname ++ "-" ++ shortHash)
  if name1.length > 63 then
    let availableLen : Int :=
      63 - (3 + 1 + (ns.length : Int) + 1) - ((shortHash.length : Int) + 1)
    if availableLen > 0 then
      "pic-" ++ ns ++ "-" ++ truncIngressName iname availableLen ++ "-" ++
        shortHash
    else
      "pic-" ++ shortHash
  else name1

/-! ## Data model (k8s.io/api/networking/v1 and internal/pangolincrd) -/

/-- `networkingv1.PathType`. -/
inductive PathType where
  | exact
  | pathPfx
  | implementationSpecific
deriving DecidableEq, Repr

/-- `networkingv1.IngressServiceBackend` (name and `Port.Number`). -/
structure ServiceBackend where
  name : String
  portNumber : Int
deriving DecidableEq, Repr

/-- `networkingv1.HTTPIngressPath`; `backendService` is `nil`-able in Go. -/
structure HTTPIngressPath where
  path : String
  pathType : Option PathType
  backendService : Option ServiceBackend
deriving DecidableEq, Repr

/-- `networkingv1.HTTPIngressRuleValue` (kept as a separate record so that a
`nil` HTTP section (`none`) stays distinct from an empty path list). -/
structure HTTPRuleValue where
  paths : List HTTPIngressPath
deriving DecidableEq, Repr

/-- `networkingv1.IngressRule`. -/
structure IngressRule where
  host : String
  http : Option HTTPRuleValue
deriving DecidableEq, Repr

/-- The parts of `networkingv1.Ingress` the controller reads. -/
structure Ingress where
  name : String
  ns : String
  uid : String
  annotations : List (String × String)
  ingressClassName : Option String
  rules : List IngressRule
deriving DecidableEq, Repr

/-- Go map lookup `m[k]` with its `ok` flag, on an association list. -/
def lookupStr (m : List (String × String)) (k : String) : Option String :=
  (m.find? (fun p => p.1 == k)).map (·.2)

/-- `pangolincrd.Target`. -/
structure Target where
  ip : String
  port : Int
  method : String
  path : String
  pathMatchType : String
  priority : Int
deriving DecidableEq, Repr

/-- `pangolincrd.TunnelRef`. -/
structure TunnelRef where
  name : String
  ns : String
deriving DecidableEq, Repr

/-- `pangolincrd.HTTPConfig`. -/
structure HTTPConfig where
  domainName : String
  subdomain : String
  sso : Bool
  blockAccess : Bool
deriving DecidableEq, Repr

/-- `pangolincrd.PangolinResourceSpec`; `httpConfig` is a `nil`-able pointer
in Go. -/
structure PangolinResourceSpec where
  name : String
  enabled : Bool
  protocol : String
  tunnelRef : TunnelRef
  httpConfig : Option HTTPConfig
  targets : List Target
deriving DecidableEq, Repr

/-- A stored `pangolincrd.PangolinResource`: object key, the three identity
labels set by the controller, and the spec. -/
structure PangolinResource where
  name : String
  ns : String
  labelUID : String
  labelName : String
  labelNamespace : String
  spec : PangolinResourceSpec
deriving DecidableEq, Repr

/-- `pangolincrd.PangolinTunnel` (only the object key is read). -/
structure Tunnel where
  name : String
  ns : String
deriving DecidableEq, Repr

/-- The parts of `config.Config` the reconciler reads. -/
structure Config where
  defaultTunnelName : String
  tunnelMapping : List (String × String)
  backendScheme : String
deriving DecidableEq, Repr

/-! ## Operations and events

The store is a list of `PangolinResource`; every mutating call and every
recorded event is logged as an `Op` so that theorems can count the
create/update/delete operations a reconciliation performs. -/

inductive Op where
  | create (r : PangolinResource)
  | update (r : PangolinResource)
  | delete (ns name : String)
  | event (etype reason payload : String)
deriving DecidableEq, Repr

def Op.isWrite : Op → Bool
  | .create _ => true
  | .update _ => true
  | .delete _ _ => true
  | .event _ _ _ => false

def Op.isDelete : Op → Bool
  | .delete _ _ => true
  | _ => false

def Op.isDeletedEvent : Op → Bool
  | .event _ reason _ => reason == "Deleted"
  | _ => false

/-- Every logged operation is an event (no store writes). -/
def writeFree (ops : List Op) : Bool := ops.all (fun op => !op.isWrite)

/-- `r.Get` by namespace and name: first matching object. -/
def getPR (store : List PangolinResource) (ns name : String) :
    Option PangolinResource :=
  store.find? (fun r => r.ns == ns && r.name == name)

/-- `r.Update` of the object with the given key (replaces its spec, keeping
the stored object's metadata, exactly as `existing.Spec = desired.Spec`
followed by `Update(existing)` does). -/
def updatePR (store : List PangolinResource) (ns name : String)
    (sp : PangolinResourceSpec) : List PangolinResource :=
  match store with
  | [] => []
  | r :: rest =>
      if r.ns == ns && r.name == name then { r with spec := sp } :: rest
      else r :: updatePR rest ns name sp

/-! ## internal/controller/ingress_controller.go -/

/-- `strings.HasPrefix(s, pre)` (char-list level, so that it evaluates in
the kernel). -/
def listIsPfxOf : List Char → List Char → Bool
  | [], _ => true
  | _ :: _, [] => false
  | a :: as, b :: bs => a == b && listIsPfxOf as bs

/-- `strings.HasPrefix(s, pre)` on strings. -/
def strStarts (s pre : String) : Bool := listIsPfxOf pre.data s.data

/-- `strings.Split(s, ".")` helper. -/
def splitDotAux : List Char → List Char → List (List Char)
  | [], cur => [cur.reverse]
  | c :: rest, cur =>
      if c == '.' then cur.reverse :: splitDotAux rest []
      else splitDotAux rest (c :: cur)

/-- `strings.Split(s, ".")`. -/
def splitDot (s : String) : List String :=
  (splitDotAux s.data []).map String.mk

/-- `strings.Join(xs, ".")`. -/
def joinDot : List String → String
  | [] => ""
  | [x] => x
  | x :: rest => x ++ "." ++ joinDot rest

/-- `isManaged`. -/
def isManaged (ing : Ingress) : Bool :=
  match lookupStr ing.annotations "pangolin.ingress.k8s.io/enabled" with
  | some enabled =>
      if String.mk (enabled.data.map goToLower) == "false" then false
      else
        let className := ing.ingressClassName.getD ""
        className == "pangolin" || strStarts className "pangolin-"
  | none =>
      let className := ing.ingressClassName.getD ""
      className == "pangolin" || strStarts className "pangolin-"

/-- `resolveTunnel`. -/
def resolveTunnel (cfg : Config) (ing : Ingress) : Except String String :=
  match lookupStr ing.annotations "pangolin.ingress.k8s.io/tunnel-name" with
  | some tn =>
      if tn ≠ "" then .ok tn
      else resolveTunnelClass cfg ing
  | none => resolveTunnelClass cfg ing
where
  /-- The class-based part of `resolveTunnel` (after the annotation check). -/
  resolveTunnelClass (cfg : Config) (ing : Ingress) : Except String String :=
    let className := ing.ingressClassName.getD ""
    if className == "pangolin" then .ok cfg.defaultTunnelName
    else if strStarts className "pangolin-" then
      let suffix := String.mk (className.data.drop 9)
      match lookupStr cfg.tunnelMapping suffix with
      | some tn => .ok tn
      | none => .ok suffix
    else .error "cannot resolve tunnel"

/-- `validateTunnel`: first tunnel with the resolved name; returns its
namespace. -/
def validateTunnel (tunnels : List Tunnel) (tn : String) : Option String :=
  (tunnels.find? (fun t => t.name == tn)).map (·.ns)

/-- `HostPathGroup`. -/
structure HostPathGroup where
  host : String
  paths : List HTTPIngressPath
deriving DecidableEq, Repr

/-- `hostMap[rule.Host] = append(hostMap[rule.Host], rule.HTTP.Paths...)` on
an insertion-ordered association list: appends to an existing entry, or adds
a new key at the end (a Go map assignment inserts the key even when the
appended slice is empty). -/
def insertPaths (m : List (String × List HTTPIngressPath)) (h : String)
    (ps : List HTTPIngressPath) : List (String × List HTTPIngressPath) :=
  match m with
  | [] => [(h, ps)]
  | (k, v) :: rest =>
      if k == h then (k, v ++ ps) :: rest else (k, v) :: insertPaths rest h ps

/-- The rule loop of `collectHostPaths`, also logging the `EmptyHost` warning
events it emits. -/
def collectLoop (rules : List IngressRule)
    (m : List (String × List HTTPIngressPath)) :
    List (String × List HTTPIngressPath) × List Op :=
  match rules with
  | [] => (m, [])
  | r :: rest =>
      if r.host == "" then
        let (m', evs) := collectLoop rest m
        (m', Op.event "Warning" "EmptyHost" "Rule with empty host skipped" :: evs)
      else
        match r.http with
        | none => collectLoop rest m
        | some v => collectLoop rest (insertPaths m r.host v.paths)

/-- `collectHostPaths`.  The Go code ranges over a `map`; the model uses the
insertion-ordered association list as its (deterministic) representative of
that iteration. -/
def collectHostPaths (rules : List IngressRule) :
    List HostPathGroup × List Op :=
  let (m, evs) := collectLoop rules []
  (m.map (fun p => ⟨p.1, p.2⟩), evs)

/-- Modelled from the spec: `util.SplitHost` is referenced by the controller
but its source file is not in the repository snapshot.  Per the spec
(§4.3 and the unit-test table): it fails when the host contains a wildcard
marker or is a bare IP literal, and otherwise splits the host into a
subdomain part and a registrable-domain part (apex domain → empty
subdomain). -/
def SplitHost (host : String) : Except String (String × String) :=
  if host.data.contains '*' then .error "wildcards unsupported"
  else
    let labels := splitDot host
    if labels.all (fun l => l ≠ "" && l.data.all Char.isDigit) then
      .error "IP literals unsupported"
    else if labels.length ≤ 2 then .ok ("", host)
    else
      .ok (joinDot (labels.take (labels.length - 2)),
           joinDot (labels.drop (labels.length - 2)))

/-- The Go `int32` conversion: two's-complement truncation to 32 bits. -/
def toInt32 (n : Int) : Int := (n + 2147483648) % 4294967296 - 2147483648

/-- The priority computation of `buildDesiredPangolinResource`:
`priority := int32(100 + len(path.Path)*10); if priority > 1000 { 1000 }`. -/
def priorityOfLen (n : Nat) : Int :=
  let priority := toInt32 (100 + (n : Int) * 10)
  if priority > 1000 then 1000 else priority

/-- `pathMatchType` mapping (`exact`, `prefix`, default `prefix`). -/
def pathMatchTypeOf (pt : Option PathType) : String :=
  match pt with
  | none => "prefix"
  | some .exact => "exact"
  | some .pathPfx => "prefix"
  | some .implementationSpecific => "prefix"

/-- The per-path target construction of `buildDesiredPangolinResource`
(`nil` backend services are skipped by the caller's filter). -/
def buildTarget (cfg : Config) (ingNs : String) (p : HTTPIngressPath)
    (svc : ServiceBackend) : Target :=
  { ip := svc.name ++ "." ++ ingNs ++ ".svc.cluster.local"
    port := if svc.portNumber ≠ 0 then svc.portNumber else 0
    method := cfg.backendScheme
    path := p.path
    pathMatchType := pathMatchTypeOf p.pathType
    priority := priorityOfLen p.path.length }

/-- The target list: paths whose backend service is `nil` are skipped. -/
def buildTargets (cfg : Config) (ingNs : String)
    (paths : List HTTPIngressPath) : List Target :=
  paths.foldr
    (fun p acc =>
      match p.backendService with
      | none => acc
      | some svc => buildTarget cfg ingNs p svc :: acc)
    []

/-- `buildDesiredPangolinResource`. -/
def buildDesiredPangolinResource (cfg : Config) (ing : Ingress) (host : String)
    (paths : List HTTPIngressPath) (tn tns : String) :
    Except String PangolinResource :=
  match SplitHost host with
  | .error e => .error ("invalid host: " ++ e)
  | .ok (subdomain0, domain0) =>
      let domain :=
        match lookupStr ing.annotations "pangolin.ingress.k8s.io/domain-name" with
        | some o => if o ≠ "" then o else domain0
        | none => domain0
      let subdomain :=
        match lookupStr ing.annotations "pangolin.ingress.k8s.io/subdomain" with
        | some o => if o ≠ "" then o else subdomain0
        | none => subdomain0
      let targets := buildTargets cfg ing.ns paths
      if targets = [] then .error "no valid backends found in Ingress paths"
      else
        .ok
          { name := GenerateName ing.ns ing.name host
            ns := ing.ns
            labelUID := ing.uid
            labelName := ing.name
            labelNamespace := ing.ns
            spec :=
              { name := ing.ns ++ "/" ++ ing.name ++ "/" ++ host
                enabled := true
                protocol := "http"
                tunnelRef := { name := tn, ns := tns }
                httpConfig := some
                  { domainName := domain
                    subdomain := subdomain
                    sso := lookupStr ing.annotations
                        "pangolin.ingress.k8s.io/sso" == some "true"
                    blockAccess := lookupStr ing.annotations
                        "pangolin.ingress.k8s.io/block-access" == some "true" }
                targets := targets } }

/-- The per-target comparison inside the `specChanged` loop. -/
def targetChanged (ct dt : Target) : Bool :=
  ct.ip ≠ dt.ip || ct.port ≠ dt.port || ct.method ≠ dt.method ||
    ct.path ≠ dt.path || ct.pathMatchType ≠ dt.pathMatchType ||
    ct.priority ≠ dt.priority

/-- The target-array loop of `specChanged` (iterates over `current.Targets`;
running out of `desired.Targets` yields `true`). -/
def targetsLoop : List Target → List Target → Bool
  | [], _ => false
  | _ :: _, [] => true
  | c :: cs, d :: ds => targetChanged c d || targetsLoop cs ds

/-- `specChanged`: the chain of early-`true` field comparisons.  HTTPConfig
fields are compared only when both pointers are non-`nil`. -/
def specChanged (current desired : PangolinResourceSpec) : Bool :=
  current.name ≠ desired.name ||
  current.enabled ≠ desired.enabled ||
  current.protocol ≠ desired.protocol ||
  current.tunnelRef.name ≠ desired.tunnelRef.name ||
  current.tunnelRef.ns ≠ desired.tunnelRef.ns ||
  (match current.httpConfig, desired.httpConfig with
   | some ch, some dh =>
       ch.domainName ≠ dh.domainName || ch.subdomain ≠ dh.subdomain ||
         ch.sso ≠ dh.sso || ch.blockAccess ≠ dh.blockAccess
   | _, _ => false) ||
  current.targets.length ≠ desired.targets.length ||
  targetsLoop current.targets desired.targets

/-- `reconcilePangolinResource`: create if absent, update if `specChanged`,
otherwise a no-op. -/
def reconcilePR (store : List PangolinResource)
    (desired : PangolinResource) : List PangolinResource × List Op :=
  match getPR store desired.ns desired.name with
  | none =>
      (store ++ [desired],
       [Op.create desired, Op.event "Normal" "Created" desired.name])
  | some existing =>
      if specChanged existing.spec desired.spec then
        (updatePR store desired.ns desired.name desired.spec,
         [Op.update { existing with spec := desired.spec },
          Op.event "Normal" "Updated" desired.name])
      else (store, [])

/-- One iteration of the host loop of `processHosts`: on a build error emit
the `InvalidHost` warning and continue; otherwise record the desired name
and create/update. -/
def hostStep (cfg : Config) (ing : Ingress) (tn tns : String)
    (acc : List PangolinResource × List String × List Op)
    (g : HostPathGroup) : List PangolinResource × List String × List Op :=
  let (store, names, ops) := acc
  match buildDesiredPangolinResource cfg ing g.host g.paths tn tns with
  | .error _ => (store, names, ops ++ [Op.event "Warning" "InvalidHost" g.host])
  | .ok desired =>
      let (store', ops') := reconcilePR store desired
      (store', names ++ [desired.name], ops ++ ops')

/-- Does `cleanupOrphanedResources` select this object for deletion?  It
lists by namespace and the owner-UID label and deletes names outside the
desired set. -/
def isOrphan (ing : Ingress) (names : List String)
    (r : PangolinResource) : Bool :=
  r.ns == ing.ns && r.labelUID == ing.uid && !names.contains r.name

/-- `cleanupOrphanedResources`. -/
def cleanupOrphans (ing : Ingress) (names : List String)
    (store : List PangolinResource) : List PangolinResource × List Op :=
  (store.filter (fun r => !isOrphan ing names r),
   (store.filter (isOrphan ing names)).foldr
     (fun r acc => Op.delete r.ns r.name :: Op.event "Normal" "Deleted" r.name :: acc)
     [])

/-- `processHosts`. -/
def processHosts (cfg : Config) (ing : Ingress) (tn tns : String)
    (store : List PangolinResource) : List PangolinResource × List Op :=
  if ing.rules.length = 0 then
    (store, [Op.event "Warning" "NoRules" "Ingress has no rules defined"])
  else
    let ghp := collectHostPaths ing.rules
    if ghp.1.length = 0 then (store, ghp.2)
    else
      let fr := ghp.1.foldl (hostStep cfg ing tn tns) (store, [], ghp.2)
      let cl := cleanupOrphans ing fr.2.1 fr.1
      (cl.1, fr.2.2 ++ cl.2)

/-- `handleUnmanaged`: delete every owned resource. -/
def handleUnmanaged (ing : Ingress) (store : List PangolinResource) :
    List PangolinResource × List Op :=
  (store.filter (fun r => !(r.ns == ing.ns && r.labelUID == ing.uid)),
   (store.filter (fun r => r.ns == ing.ns && r.labelUID == ing.uid)).foldr
     (fun r acc => Op.delete r.ns r.name :: Op.event "Normal" "Deleted" r.name :: acc)
     [])

/-- `Reconcile` for an ingress that exists in the cluster: managed check,
tunnel resolution and validation, then `processHosts`. -/
def reconcile (cfg : Config) (tunnels : List Tunnel) (ing : Ingress)
    (store : List PangolinResource) : List PangolinResource × List Op :=
  if !isManaged ing then handleUnmanaged ing store
  else
    match resolveTunnel cfg ing with
    | .error e => (store, [Op.event "Warning" "TunnelResolutionFailed" e])
    | .ok tn =>
        match validateTunnel tunnels tn with
        | none => (store, [Op.event "Warning" "TunnelNotFound" tn])
        | some tns => processHosts cfg ing tn tns store

/-! ## Specification-side predicates (stated from the spec's wording; used
only in claim statements to compare code behaviour against the spec) -/

/-- First character is a hyphen. -/
def headHyphen : List Char → Bool
  | [] => false
  | c :: _ => c == '-'

/-- Last character, if any, is not a hyphen. -/
def lastNotHyphen (l : List Char) : Bool :=
  match l.getLast? with
  | some c => !(c == '-')
  | none => true

/-- The identifier grammar of the spec: only lowercase alphanumerics and
hyphens, no leading or trailing hyphen, no two adjacent hyphens. -/
def kubeGrammar (s : String) : Bool :=
  s.data.all isAllowedChar && !headHyphen s.data && lastNotHyphen s.data &&
    !containsDD s.data

/-- A well-formed name component as described by C2: nonempty, lowercase
alphanumerics with only single interior hyphens. -/
def isLabel (s : String) : Bool :=
  !s.data.isEmpty && kubeGrammar s

/-- Spec-side (C10): the class/selector matches this controller's domain. -/
def classMatches (ing : Ingress) : Bool :=
  (ing.ingressClassName.getD "") == "pangolin" ||
    strStarts (ing.ingressClassName.getD "") "pangolin-"

/-- Spec-side (C10): the enabled directive, lowercased, is not "false" (or
is absent). -/
def enabledNotFalse (ing : Ingress) : Bool :=
  match lookupStr ing.annotations "pangolin.ingress.k8s.io/enabled" with
  | some v => !(String.mk (v.data.map goToLower) == "false")
  | none => true

/-- Spec-side (C5): the target lists differ in length or in some field at
some position. -/
def targetsDifferClaim (cs ds : List Target) : Prop :=
  cs.length ≠ ds.length ∨ ∃ p ∈ cs.zip ds, targetChanged p.1 p.2 = true

/-- Spec-side (C5): both HTTP configurations are present and some field
differs. -/
def httpConfigDiffer (c d : PangolinResourceSpec) : Prop :=
  ∃ ch dh, c.httpConfig = some ch ∧ d.httpConfig = some dh ∧
    (ch.domainName ≠ dh.domainName ∨ ch.subdomain ≠ dh.subdomain ∨
     ch.sso ≠ dh.sso ∨ ch.blockAccess ≠ dh.blockAccess)

/-- Spec-side (C5, amended): some compared field differs — scalar fields,
HTTP configuration fields when both configurations are present, or the
target lists. -/
def specDiffers (c d : PangolinResourceSpec) : Prop :=
  c.name ≠ d.name ∨ c.enabled ≠ d.enabled ∨ c.protocol ≠ d.protocol ∨
  c.tunnelRef.name ≠ d.tunnelRef.name ∨ c.tunnelRef.ns ≠ d.tunnelRef.ns ∨
  httpConfigDiffer c d ∨ targetsDifferClaim c.targets d.targets

/-- Spec-side (C5, as stated): like `specDiffers` but a one-sided HTTP
configuration (exactly one of the two present) also counts as a
difference. -/
def specDiffersClaim (c d : PangolinResourceSpec) : Bool :=
  c.name ≠ d.name || c.enabled ≠ d.enabled || c.protocol ≠ d.protocol ||
  c.tunnelRef.name ≠ d.tunnelRef.name || c.tunnelRef.ns ≠ d.tunnelRef.ns ||
  (match c.httpConfig, d.httpConfig with
   | some ch, some dh =>
       ch.domainName ≠ dh.domainName || ch.subdomain ≠ dh.subdomain ||
         ch.sso ≠ dh.sso || ch.blockAccess ≠ dh.blockAccess
   | none, none => false
   | _, _ => true) ||
  c.targets.length ≠ d.targets.length ||
  (c.targets.zip d.targets).any (fun p => targetChanged p.1 p.2)

/-- The paths a rule carries (empty when its HTTP section is `nil`). -/
def rulePaths (r : IngressRule) : List HTTPIngressPath :=
  match r.http with
  | some v => v.paths
  | none => []

/-- Spec-side (C6): the concatenation, in rule order, of the paths of all
rules with the given host. -/
def contribPaths (rules : List IngressRule) (h : String) :
    List HTTPIngressPath :=
  rules.foldr (fun r acc => if r.host = h then rulePaths r ++ acc else acc) []

/-- Spec-side (C6): one `EmptyHost` warning per empty-host rule, in rule
order. -/
def emptyHostEvents (rules : List IngressRule) : List Op :=
  (rules.filter (fun r => r.host == "")).map
    (fun _ => Op.event "Warning" "EmptyHost" "Rule with empty host skipped")

/-- Spec-side (C6): some rule carries this host together with an HTTP
section. -/
def hostHasHTTPRule (rules : List IngressRule) (h : String) : Bool :=
  rules.any (fun r => r.host == h && r.http.isSome)

/-- The resources the host loop successfully builds for a list of groups. -/
def builds (cfg : Config) (ing : Ingress) (tn tns : String)
    (gs : List HostPathGroup) : List PangolinResource :=
  gs.filterMap (fun g =>
    (buildDesiredPangolinResource cfg ing g.host g.paths tn tns).toOption)

/-- The desired-name set of one reconciliation pass: the names of the
resources built from the collected host groups. -/
def desiredNamesOf (cfg : Config) (ing : Ingress) (tn tns : String) :
    List String :=
  (builds cfg ing tn tns (collectHostPaths ing.rules).1).map (·.name)

/-- First-match lookup in the host accumulation map. -/
def alookup (m : List (String × List HTTPIngressPath)) (h : String) :
    Option (List HTTPIngressPath) :=
  (m.find? (fun p => p.1 == h)).map (·.2)

/-- The keys of the host accumulation map. -/
def akeys (m : List (String × List HTTPIngressPath)) : List String :=
  m.map (·.1)

/-- Concrete controller configuration for the reconciliation examples. -/
def cfgEx : Config :=
  { defaultTunnelName := "default-tunnel", tunnelMapping := [],
    backendScheme := "http" }

/-- The tunnel list for the examples: the default tunnel exists. -/
def tunnelsEx : List Tunnel :=
  [{ name := "default-tunnel", ns := "pangolin-system" }]

/-- A path rule `/ -> svc-a:80` for the examples. -/
def pathEx : HTTPIngressPath :=
  { path := "/", pathType := some PathType.pathPfx,
    backendService := some { name := "svc-a", portNumber := 80 } }

/-- A managed ingress without rules. -/
def ingNoRules : Ingress :=
  { name := "myapp", ns := "default", uid := "uid-1", annotations := [],
    ingressClassName := some "pangolin", rules := [] }

/-- A managed ingress with one valid host. -/
def ingOneHost : Ingress :=
  { name := "myapp", ns := "default", uid := "uid-1", annotations := [],
    ingressClassName := some "pangolin",
    rules := [{ host := "app.example.com",
                http := some { paths := [pathEx] } }] }

/-- A managed ingress with two distinct hosts whose 4-byte name
fingerprints collide (found by a birthday search over SHA-256
prefixes): both hosts generate the name `pic-default-myapp-3d0f9aa9`. -/
def ingCollide : Ingress :=
  { name := "myapp", ns := "default", uid := "uid-1", annotations := [],
    ingressClassName := some "pangolin",
    rules := [{ host := "h000e63.example.com",
                http := some { paths := [pathEx] } },
              { host := "h00fa09.example.com",
                http := some { paths := [pathEx] } }] }

/-- A stored resource labeled to `uid-1` whose name is outside every
desired-name set of the examples. -/
def orphanEx : PangolinResource :=
  { name := "pic-orphan", ns := "default", labelUID := "uid-1",
    labelName := "myapp", labelNamespace := "default",
    spec := { name := "x", enabled := true, protocol := "http",
              tunnelRef := { name := "default-tunnel",
                             ns := "pangolin-system" },
              httpConfig := none, targets := [] } }

/-! ## Lemmas: characters and sanitisation -/

theorem goToLower_eq_self {c : Char} (h : isAllowedChar c = true) :
    goToLower c = c := by
  simp only [isAllowedChar, Bool.or_eq_true, Bool.and_eq_true,
    decide_eq_true_eq, beq_iff_eq] at h
  unfold goToLower
  rw [if_neg]
  omega

theorem replaceInvalid_eq_self {c : Char} (h : isAllowedChar c = true) :
    replaceInvalid c = c := by
  unfold replaceInvalid
  rw [if_pos h]

theorem replaceInvalid_allowed (c : Char) :
    isAllowedChar (replaceInvalid c) = true := by
  unfold replaceInvalid
  by_cases h : isAllowedChar c = true
  · rw [if_pos h]; exact h
  · rw [if_neg h]; decide

theorem map_goToLower_id {l : List Char} (h : l.all isAllowedChar = true) :
    l.map goToLower = l := by
  induction l with
  | nil => rfl
  | cons c t ih =>
      simp only [List.all_cons, Bool.and_eq_true] at h
      simp [goToLower_eq_self h.1, ih h.2]

theorem map_replaceInvalid_id {l : List Char} (h : l.all isAllowedChar = true) :
    l.map replaceInvalid = l := by
  induction l with
  | nil => rfl
  | cons c t ih =>
      simp only [List.all_cons, Bool.and_eq_true] at h
      simp [replaceInvalid_eq_self h.1, ih h.2]

theorem containsDD_cons (x : Char) (l : List Char) :
    containsDD (x :: l) = (((x == '-') && headHyphen l) || containsDD l) := by
  cases l with
  | nil => simp [containsDD, headHyphen]
  | cons b t => rfl

theorem dropWhile_eq_self_of_head {l : List Char}
    (h : headHyphen l = false) : l.dropWhile (· == '-') = l := by
  cases l with
  | nil => rfl
  | cons c t =>
      simp only [headHyphen] at h
      simp [List.dropWhile_cons, h]

theorem revDrop_eq_self_of_last {l : List Char}
    (h : lastNotHyphen l = true) :
    (l.reverse.dropWhile (· == '-')).reverse = l := by
  unfold lastNotHyphen at h
  cases hr : l.reverse with
  | nil =>
      have : l = [] := by
        have := congrArg List.reverse hr
        simpa using this
      simp [this]
  | cons c t =>
      have hlast : l.getLast? = some c := by
        rw [← List.head?_reverse, hr]; rfl
      rw [hlast] at h
      simp only [Bool.not_eq_true'] at h
      rw [List.dropWhile_cons, if_neg (by simp [h]), ← hr]
      simp

theorem trimHyphens_id {l : List Char} (h1 : headHyphen l = false)
    (h2 : lastNotHyphen l = true) : trimHyphens l = l := by
  unfold trimHyphens
  rw [dropWhile_eq_self_of_head h1, revDrop_eq_self_of_last h2]

theorem collapseDD_of_not {fuel : Nat} {l : List Char}
    (h : containsDD l = false) : collapseDD fuel l = l := by
  cases fuel with
  | zero => rfl
  | succ n => simp [collapseDD, h]

theorem sanitize_id {l : List Char}
    (ha : l.all isAllowedChar = true)
    (h1 : headHyphen l = false)
    (h2 : lastNotHyphen l = true)
    (h3 : containsDD l = false) :
    sanitizeName (String.mk l) = String.mk l := by
  unfold sanitizeName
  simp only [map_goToLower_id ha, map_replaceInvalid_id ha, trimHyphens_id h1 h2,
    collapseDD_of_not h3]

theorem hexDigit_mem (n : Nat) : hexDigit n ∈ hexDigits := by
  unfold hexDigit
  by_cases h : n < hexDigits.length
  · rw [List.getD_eq_getElem hexDigits '0' h]
    exact List.getElem_mem h
  · rw [List.getD_eq_default _ _ (Nat.le_of_not_lt h)]
    decide

theorem hexDigits_allowed :
    ∀ c ∈ hexDigits, isAllowedChar c = true ∧ (c == '-') = false := by decide

theorem hexBytes_mem {bs : List Nat} :
    ∀ c ∈ hexBytes bs, c ∈ hexDigits := by
  induction bs with
  | nil => intro c hc; simp [hexBytes] at hc
  | cons b t ih =>
      intro c hc
      simp only [hexBytes, List.foldr_cons, List.mem_cons] at hc
      rcases hc with h | h | h
      · rw [h]; exact hexDigit_mem _
      · rw [h]; exact hexDigit_mem _
      · exact ih c h

theorem containsDD_of_no_hyphen {l : List Char}
    (h : ∀ c ∈ l, (c == '-') = false) : containsDD l = false := by
  induction l with
  | nil => rfl
  | cons c t ih =>
      rw [containsDD_cons]
      have hc : (c == '-') = false := h c (by simp)
      simp [hc, ih (fun x hx => h x (by simp [hx]))]

theorem headHyphen_of_no_hyphen {l : List Char}
    (h : ∀ c ∈ l, (c == '-') = false) : headHyphen l = false := by
  cases l with
  | nil => rfl
  | cons c t => simpa [headHyphen] using h c (by simp)

theorem headHyphen_append_head {l : List Char} (x : List Char) (hne : l ≠ []) :
    headHyphen (l ++ x) = headHyphen l := by
  cases l with
  | nil => exact absurd rfl hne
  | cons c t => rfl

theorem headHyphen_append_swap (A : List Char) (x : Char) (B C : List Char) :
    headHyphen (A ++ x :: B) = headHyphen (A ++ x :: C) := by
  cases A with
  | nil => rfl
  | cons a t => rfl

theorem containsDD_append_hyphen {A B : List Char}
    (hA : containsDD (A ++ ['-']) = false)
    (hB1 : headHyphen B = false) (hB2 : containsDD B = false) :
    containsDD (A ++ '-' :: B) = false := by
  induction A with
  | nil =>
      simp only [List.nil_append]
      rw [containsDD_cons]
      simp [hB1, hB2]
  | cons a t ih =>
      simp only [List.cons_append] at hA ⊢
      rw [containsDD_cons] at hA ⊢
      simp only [Bool.or_eq_false_iff, Bool.and_eq_false_iff] at hA ⊢
      refine ⟨?_, ih hA.2⟩
      rcases hA.1 with h | h
      · exact Or.inl h
      · right
        rw [headHyphen_append_swap t '-' B []]
        exact h

theorem containsDD_append_end {A : List Char}
    (h1 : containsDD A = false) (h2 : lastNotHyphen A = true) :
    containsDD (A ++ ['-']) = false := by
  induction A with
  | nil => rfl
  | cons a t ih =>
      simp only [List.cons_append]
      rw [containsDD_cons]
      cases t with
      | nil =>
          simp only [List.nil_append]
          unfold lastNotHyphen at h2
          simp only [List.getLast?_singleton] at h2
          simp only [Bool.not_eq_true'] at h2
          simp [headHyphen, h2, containsDD]
      | cons c u =>
          rw [containsDD_cons] at h1
          simp only [Bool.or_eq_false_iff, Bool.and_eq_false_iff] at h1 ⊢
          have h2' : lastNotHyphen (c :: u) = true := by
            unfold lastNotHyphen at h2 ⊢
            rwa [List.getLast?_cons_cons] at h2
          refine ⟨?_, ih h1.2 h2'⟩
          rcases h1.1 with h | h
          · exact Or.inl h
          · right
            rw [headHyphen_append_head ['-'] (by simp)]
            exact h

theorem lastNotHyphen_append {A B : List Char}
    (hB : lastNotHyphen B = true) (hne : B ≠ []) :
    lastNotHyphen (A ++ B) = true := by
  unfold lastNotHyphen at hB ⊢
  rw [List.getLast?_append]
  cases hO : B.getLast? with
  | none =>
      exact absurd (List.getLast?_eq_none_iff.mp hO) hne
  | some c =>
      rw [hO] at hB
      have hc : (!(c == '-')) = true := hB
      simp only [Option.or]
      exact hc

theorem lastNotHyphen_of_no_hyphen {l : List Char}
    (h : ∀ c ∈ l, (c == '-') = false) : lastNotHyphen l = true := by
  induction l with
  | nil => rfl
  | cons a t ih =>
      cases t with
      | nil =>
          unfold lastNotHyphen
          simp only [List.getLast?_singleton]
          simpa using h a (by simp)
      | cons b u =>
          unfold lastNotHyphen
          rw [List.getLast?_cons_cons]
          exact ih (fun c hc => h c (by simp [List.mem_cons] at hc ⊢; tauto))

theorem sha256_length (m : List Nat) : (sha256 m).length = 32 := by
  simp [sha256, wordBytes]

theorem hexBytes_length (bs : List Nat) : (hexBytes bs).length = 2 * bs.length := by
  induction bs with
  | nil => rfl
  | cons b t ih =>
      simp only [hexBytes, List.foldr_cons] at ih ⊢
      simp only [List.length_cons, ih]
      omega

theorem shortHashOf_length (ns iname host : String) :
    (shortHashOf ns iname host).length = 8 := by
  unfold shortHashOf
  rw [String.length_mk, hexBytes_length, List.length_take, sha256_length]
  decide

theorem shortHashOf_chars (ns iname host : String) :
    ∀ c ∈ (shortHashOf ns iname host).data,
      isAllowedChar c = true ∧ (c == '-') = false :=
  fun c hc => hexDigits_allowed c (hexBytes_mem c hc)

theorem shortHashOf_data_ne_nil (ns iname host : String) :
    (shortHashOf ns iname host).data ≠ [] := by
  have h := shortHashOf_length ns iname host
  rw [String.length] at h
  intro hnil
  rw [hnil] at h
  simp at h

/-- Decomposition of the components of `isLabel`. -/
theorem isLabel_parts {s : String} (h : isLabel s = true) :
    s.data ≠ [] ∧ s.data.all isAllowedChar = true ∧ headHyphen s.data = false ∧
      lastNotHyphen s.data = true ∧ containsDD s.data = false := by
  simp only [isLabel, kubeGrammar, Bool.and_eq_true, Bool.not_eq_true'] at h
  obtain ⟨h0, ⟨⟨hA, hH⟩, hL⟩, hD⟩ := h
  refine ⟨?_, hA, hH, hL, hD⟩
  intro hnil
  rw [hnil] at h0
  simp at h0

/-- The raw `pic-<ns>-<iname>-<hash>` string already satisfies the grammar
`sanitizeName` enforces, when both middle components are well-formed
labels. -/
theorem fullName_props (ns iname host : String)
    (hns : isLabel ns = true) (hin : isLabel iname = true) :
    (("pic-" ++ ns ++ "-" ++ iname ++ "-" ++ shortHashOf ns iname host).data.all
        isAllowedChar = true) ∧
    headHyphen ("pic-" ++ ns ++ "-" ++ iname ++ "-" ++
        shortHashOf ns iname host).data = false ∧
    lastNotHyphen ("pic-" ++ ns ++ "-" ++ iname ++ "-" ++
        shortHashOf ns iname host).data = true ∧
    containsDD ("pic-" ++ ns ++ "-" ++ iname ++ "-" ++
        shortHashOf ns iname host).data = false := by
  obtain ⟨hnsNe, hnsAll, hnsHead, hnsLast, hnsDD⟩ := isLabel_parts hns
  obtain ⟨hinNe, hinAll, hinHead, hinLast, hinDD⟩ := isLabel_parts hin
  have hd : ("pic-" ++ ns ++ "-" ++ iname ++ "-" ++
      shortHashOf ns iname host).data =
      'p' :: 'i' :: 'c' :: '-' ::
        (ns.data ++ '-' :: (iname.data ++ '-' ::
          (shortHashOf ns iname host).data)) := by
    simp only [String.data_append, List.append_assoc]
    rfl
  have hHashAll : ∀ c ∈ (shortHashOf ns iname host).data, isAllowedChar c = true :=
    fun c hc => (shortHashOf_chars ns iname host c hc).1
  have hHashNH : ∀ c ∈ (shortHashOf ns iname host).data, (c == '-') = false :=
    fun c hc => (shortHashOf_chars ns iname host c hc).2
  have hHashDD : containsDD (shortHashOf ns iname host).data = false :=
    containsDD_of_no_hyphen hHashNH
  have hHashHead : headHyphen (shortHashOf ns iname host).data = false :=
    headHyphen_of_no_hyphen hHashNH
  have hR2 : containsDD (iname.data ++ '-' ::
      (shortHashOf ns iname host).data) = false :=
    containsDD_append_hyphen (containsDD_append_end hinDD hinLast) hHashHead hHashDD
  have hR2Head : headHyphen (iname.data ++ '-' ::
      (shortHashOf ns iname host).data) = false := by
    rw [headHyphen_append_head _ hinNe]
    exact hinHead
  have hR1 : containsDD (ns.data ++ '-' :: (iname.data ++ '-' ::
      (shortHashOf ns iname host).data)) = false :=
    containsDD_append_hyphen (containsDD_append_end hnsDD hnsLast) hR2Head hR2
  have hR1Head : headHyphen (ns.data ++ '-' :: (iname.data ++ '-' ::
      (shortHashOf ns iname host).data)) = false := by
    rw [headHyphen_append_head _ hnsNe]
    exact hnsHead
  refine ⟨?_, ?_, ?_, ?_⟩
  · rw [hd]
    simp [List.all_cons, List.all_append, hnsAll, hinAll,
      List.all_eq_true.mpr hHashAll,
      show isAllowedChar 'p' = true by decide,
      show isAllowedChar 'i' = true by decide,
      show isAllowedChar 'c' = true by decide,
      show isAllowedChar '-' = true by decide]
  · rw [hd]; rfl
  · have hd2 : ("pic-" ++ ns ++ "-" ++ iname ++ "-" ++
        shortHashOf ns iname host).data =
        ('p' :: 'i' :: 'c' :: '-' :: (ns.data ++ '-' :: (iname.data ++ ['-']))) ++
          (shortHashOf ns iname host).data := by
      rw [hd]
      simp only [List.cons_append, List.append_assoc, List.singleton_append,
        List.nil_append]
    rw [hd2]
    exact lastNotHyphen_append
      (lastNotHyphen_of_no_hyphen hHashNH) (shortHashOf_data_ne_nil ns iname host)
  · rw [hd, containsDD_cons]
    simp only [show ('p' == '-') = false by decide, Bool.false_and, Bool.false_or]
    rw [containsDD_cons]
    simp only [show ('i' == '-') = false by decide, Bool.false_and, Bool.false_or]
    rw [containsDD_cons]
    simp only [show ('c' == '-') = false by decide, Bool.false_and, Bool.false_or]
    rw [containsDD_cons]
    simp only [hR1Head, hR1, Bool.and_false, Bool.false_or]

/-! ## Claim C2 -/

/-- C2: for every triple of well-formed components (lowercase alphanumerics
with single interior hyphens) whose combined name fits in 63 characters,
`GenerateName` returns exactly `pic-<namespace>-<ingressName>-<fingerprint>`
with the fingerprint being the 8 hex characters of the first 4 bytes of
`SHA-256(namespace ++ "/" ++ ingressName ++ "/" ++ host)`, and calling it
twice returns the same string. -/
theorem c2_generate_name_format (ns iname host : String)
    (h1 : isLabel ns = true) (h2 : isLabel iname = true)
    (h3 : isLabel host = true)
    (hlen : ("pic-" ++ ns ++ "-" ++ iname ++ "-" ++
      shortHashOf ns iname host).length ≤ 63) :
    GenerateName ns iname host =
      "pic-" ++ ns ++ "-" ++ iname ++ "-" ++ shortHashOf ns iname host ∧
    (shortHashOf ns iname host).length = 8 ∧
    GenerateName ns iname host = GenerateName ns iname host := by
  obtain ⟨pA, pH, pL, pD⟩ := fullName_props ns iname host h1 h2
  have hsan : sanitizeName ("pic-" ++ ns ++ "-" ++ iname ++ "-" ++
      shortHashOf ns iname host) =
      "pic-" ++ ns ++ "-" ++ iname ++ "-" ++ shortHashOf ns iname host :=
    sanitize_id pA pH pL pD
  refine ⟨?_, shortHashOf_length ns iname host, rfl⟩
  simp only [GenerateName]
  rw [hsan, if_neg (by omega)]

/-- Witness for C2 at a concrete triple. -/
theorem c2_generate_name_format_witness :
    GenerateName "default" "myapp" "apphost" =
      "pic-" ++ "default" ++ "-" ++ "myapp" ++ "-" ++
        shortHashOf "default" "myapp" "apphost" ∧
    (shortHashOf "default" "myapp" "apphost").length = 8 ∧
    GenerateName "default" "myapp" "apphost" =
      GenerateName "default" "myapp" "apphost" :=
  c2_generate_name_format "default" "myapp" "apphost"
    (by decide) (by decide) (by decide)
    (by rw [String.length_append, String.length_append, String.length_append,
          String.length_append, shortHashOf_length]; decide)

/-! ## Lemmas: the sanitiser on arbitrary input (for C3) -/

theorem replDD_length_le (l : List Char) : (replDD l).length ≤ l.length := by
  induction l using replDD.induct with
  | case1 a b rest h ih => simp only [replDD, if_pos h, List.length_cons]; omega
  | case2 a b rest h ih =>
      simp only [replDD, if_neg h, List.length_cons] at ih ⊢; omega
  | case3 l h =>
      cases l with
      | nil => simp [replDD]
      | cons c t =>
          cases t with
          | nil => simp [replDD]
          | cons d u => exact absurd rfl (h c d u)

theorem replDD_length_lt {l : List Char} (h : containsDD l = true) :
    (replDD l).length < l.length := by
  induction l using replDD.induct with
  | case1 a b rest hab ih =>
      simp only [replDD, if_pos hab, List.length_cons]
      have := replDD_length_le rest
      omega
  | case2 a b rest hab ih =>
      have hab' : (a == '-' && b == '-') = false := by
        simpa using hab
      simp only [containsDD, hab', Bool.false_or] at h
      simp only [replDD, if_neg hab, List.length_cons]
      have h1 := ih h
      have h2 : (b :: rest).length = rest.length + 1 := rfl
      omega
  | case3 l hl =>
      cases l with
      | nil => simp [containsDD] at h
      | cons c t =>
          cases t with
          | nil => simp [containsDD] at h
          | cons d u => exact absurd rfl (hl c d u)

theorem collapseDD_no_dd : ∀ (fuel : Nat) (l : List Char), l.length ≤ fuel →
    containsDD (collapseDD fuel l) = false := by
  intro fuel
  induction fuel with
  | zero =>
      intro l h
      have : l = [] := List.eq_nil_of_length_eq_zero (Nat.le_zero.mp h)
      subst this
      rfl
  | succ n ih =>
      intro l h
      by_cases hc : containsDD l = true
      · rw [show collapseDD (n + 1) l =
            (if containsDD l then collapseDD n (replDD l) else l) from rfl,
          if_pos hc]
        exact ih _ (by have := replDD_length_lt hc; omega)
      · rw [show collapseDD (n + 1) l =
            (if containsDD l then collapseDD n (replDD l) else l) from rfl,
          if_neg hc]
        simpa using hc

theorem replDD_all {l : List Char} (h : l.all isAllowedChar = true) :
    (replDD l).all isAllowedChar = true := by
  induction l using replDD.induct with
  | case1 a b rest hab ih =>
      simp only [List.all_cons, Bool.and_eq_true] at h
      rw [show replDD (a :: b :: rest) =
          (if a == '-' && b == '-' then '-' :: replDD rest
           else a :: replDD (b :: rest)) from rfl, if_pos hab]
      simp only [List.all_cons, Bool.and_eq_true]
      exact ⟨by decide, ih h.2.2⟩
  | case2 a b rest hab ih =>
      simp only [List.all_cons, Bool.and_eq_true] at h
      rw [show replDD (a :: b :: rest) =
          (if a == '-' && b == '-' then '-' :: replDD rest
           else a :: replDD (b :: rest)) from rfl, if_neg hab]
      simp only [List.all_cons, Bool.and_eq_true]
      refine ⟨h.1, ?_⟩
      have := ih (by simp [List.all_cons, h.2.1, h.2.2])
      simpa [List.all_cons] using this
  | case3 l hl => exact match l, hl with
      | [], _ => h
      | [c], _ => h
      | a :: b :: r, hl => absurd rfl (hl a b r)

theorem collapseDD_all : ∀ (fuel : Nat) (l : List Char),
    l.all isAllowedChar = true → (collapseDD fuel l).all isAllowedChar = true := by
  intro fuel
  induction fuel with
  | zero => intro l h; exact h
  | succ n ih =>
      intro l h
      rw [show collapseDD (n + 1) l =
          (if containsDD l then collapseDD n (replDD l) else l) from rfl]
      by_cases hc : containsDD l = true
      · rw [if_pos hc]; exact ih _ (replDD_all h)
      · rw [if_neg hc]; exact h

theorem replDD_head {l : List Char} (h : headHyphen l = false) :
    headHyphen (replDD l) = false := by
  cases l with
  | nil => rfl
  | cons a t =>
      cases t with
      | nil => simpa [replDD, headHyphen] using h
      | cons b u =>
          simp only [headHyphen] at h
          rw [show replDD (a :: b :: u) =
              (if a == '-' && b == '-' then '-' :: replDD u
               else a :: replDD (b :: u)) from rfl,
            if_neg (by simp [h])]
          simpa [headHyphen] using h

theorem collapseDD_head : ∀ (fuel : Nat) (l : List Char),
    headHyphen l = false → headHyphen (collapseDD fuel l) = false := by
  intro fuel
  induction fuel with
  | zero => intro l h; exact h
  | succ n ih =>
      intro l h
      rw [show collapseDD (n + 1) l =
          (if containsDD l then collapseDD n (replDD l) else l) from rfl]
      by_cases hc : containsDD l = true
      · rw [if_pos hc]; exact ih _ (replDD_head h)
      · rw [if_neg hc]; exact h

theorem replDD_no_hyphen_id {l : List Char}
    (h : ∀ c ∈ l, (c == '-') = false) : replDD l = l := by
  induction l using replDD.induct with
  | case1 a b rest hab ih =>
      have := h a (by simp)
      simp only [Bool.and_eq_true] at hab
      rw [this] at hab
      simp at hab
  | case2 a b rest hab ih =>
      simp only [replDD, if_neg hab]
      rw [ih (fun c hc => h c (by simp [List.mem_cons] at hc ⊢; tauto))]
  | case3 l hl => exact match l, hl with
      | [], _ => rfl
      | [c], _ => rfl
      | a :: b :: r, hl => absurd rfl (hl a b r)

theorem replDD_append_suffix {s : List Char}
    (hs : ∀ c ∈ s, (c == '-') = false) (hne : s ≠ []) :
    ∀ (f : List Char), ∃ g, replDD (f ++ s) = g ++ s := by
  suffices H : ∀ (n : Nat) (f : List Char), f.length ≤ n →
      ∃ g, replDD (f ++ s) = g ++ s from fun f => H f.length f le_rfl
  intro n
  induction n with
  | zero =>
      intro f hf
      have : f = [] := List.eq_nil_of_length_eq_zero (Nat.le_zero.mp hf)
      subst this
      exact ⟨[], by simp [replDD_no_hyphen_id hs]⟩
  | succ n ih =>
      intro f hf
      cases f with
      | nil => exact ⟨[], by simp [replDD_no_hyphen_id hs]⟩
      | cons a f' =>
          cases f' with
          | nil =>
              obtain ⟨c, s', rfl⟩ : ∃ c s', s = c :: s' := by
                cases s with
                | nil => exact absurd rfl hne
                | cons c s' => exact ⟨c, s', rfl⟩
              have hc : (c == '-') = false := hs c (by simp)
              refine ⟨[a], ?_⟩
              rw [show ([a] ++ c :: s' : List Char) = a :: c :: s' from rfl,
                show replDD (a :: c :: s') =
                  (if a == '-' && c == '-' then '-' :: replDD s'
                   else a :: replDD (c :: s')) from rfl,
                if_neg (by simp [hc]),
                replDD_no_hyphen_id (fun x hx => hs x hx)]
          | cons b f'' =>
              by_cases hab : (a == '-' && b == '-') = true
              · obtain ⟨g, hg⟩ := ih f'' (by
                  simp only [List.length_cons] at hf; omega)
                refine ⟨'-' :: g, ?_⟩
                rw [show ((a :: b :: f'') ++ s : List Char) =
                    a :: b :: (f'' ++ s) from rfl,
                  show replDD (a :: b :: (f'' ++ s)) =
                    (if a == '-' && b == '-' then '-' :: replDD (f'' ++ s)
                     else a :: replDD (b :: (f'' ++ s))) from rfl,
                  if_pos hab, hg]
                rfl
              · obtain ⟨g, hg⟩ := ih (b :: f'') (by
                  simp only [List.length_cons] at hf ⊢; omega)
                refine ⟨a :: g, ?_⟩
                rw [show ((a :: b :: f'') ++ s : List Char) =
                    a :: b :: (f'' ++ s) from rfl,
                  show replDD (a :: b :: (f'' ++ s)) =
                    (if a == '-' && b == '-' then '-' :: replDD (f'' ++ s)
                     else a :: replDD (b :: (f'' ++ s))) from rfl,
                  if_neg hab]
                rw [show (b :: (f'' ++ s) : List Char) = (b :: f'') ++ s from rfl,
                  hg]
                rfl

theorem collapseDD_suffix {s : List Char}
    (hs : ∀ c ∈ s, (c == '-') = false) (hne : s ≠ []) :
    ∀ (fuel : Nat) (l : List Char), (∃ f, l = f ++ s) →
      ∃ g, collapseDD fuel l = g ++ s := by
  intro fuel
  induction fuel with
  | zero => intro l h; simpa [collapseDD] using h
  | succ n ih =>
      intro l h
      rw [show collapseDD (n + 1) l =
          (if containsDD l then collapseDD n (replDD l) else l) from rfl]
      by_cases hc : containsDD l = true
      · rw [if_pos hc]
        obtain ⟨f, rfl⟩ := h
        exact ih _ (replDD_append_suffix hs hne f)
      · rw [if_neg hc]; exact h

theorem mem_trimHyphens {l : List Char} : ∀ c ∈ trimHyphens l, c ∈ l := by
  intro c hc
  unfold trimHyphens at hc
  rw [List.mem_reverse] at hc
  have h1 : c ∈ (l.dropWhile (· == '-')).reverse :=
    (List.dropWhile_sublist _).mem hc
  rw [List.mem_reverse] at h1
  exact (List.dropWhile_sublist _).mem h1

theorem headHyphen_dropWhile (l : List Char) :
    headHyphen (l.dropWhile (· == '-')) = false := by
  induction l with
  | nil => rfl
  | cons c t ih =>
      rw [List.dropWhile_cons]
      by_cases hc : (c == '-') = true
      · rw [if_pos hc]; exact ih
      · rw [if_neg hc]
        simpa [headHyphen] using hc

theorem lastNotHyphen_revDrop (m : List Char) :
    lastNotHyphen ((m.reverse.dropWhile (· == '-')).reverse) = true := by
  unfold lastNotHyphen
  rw [List.getLast?_reverse]
  cases hy : m.reverse.dropWhile (· == '-') with
  | nil => rfl
  | cons d t =>
      have h2 := headHyphen_dropWhile m.reverse
      rw [hy] at h2
      simp only [headHyphen] at h2
      simp [h2]

theorem revDrop_decomp (m : List Char) :
    ∃ d, m = (m.reverse.dropWhile (· == '-')).reverse ++ d ∧
      ∀ c ∈ d, (c == '-') = true := by
  refine ⟨(m.reverse.takeWhile (· == '-')).reverse, ?_, ?_⟩
  · conv_lhs => rw [← List.reverse_reverse m,
      ← List.takeWhile_append_dropWhile (p := (· == '-')) (l := m.reverse)]
    rw [List.reverse_append]
  · intro c hc
    rw [List.mem_reverse] at hc
    exact List.mem_takeWhile_imp (p := (· == '-')) hc

/-- Whatever the input, `sanitizeName` output satisfies the identifier
grammar: only `a`-`z`, `0`-`9`, `-`; no leading/trailing hyphen; no double
hyphen. -/
theorem sanitizeName_grammar (s : String) :
    kubeGrammar (sanitizeName s) = true := by
  unfold sanitizeName kubeGrammar
  have hall2 : ((s.data.map goToLower).map replaceInvalid).all isAllowedChar
      = true := by
    rw [List.all_eq_true]
    intro c hc
    obtain ⟨a, _, rfl⟩ := List.mem_map.mp hc
    exact replaceInvalid_allowed a
  have hallt : (trimHyphens ((s.data.map goToLower).map replaceInvalid)).all
      isAllowedChar = true := by
    rw [List.all_eq_true]
    intro c hc
    exact List.all_eq_true.mp hall2 c (mem_trimHyphens c hc)
  have hheadt : headHyphen
      (trimHyphens ((s.data.map goToLower).map replaceInvalid)) = false := by
    unfold trimHyphens
    obtain ⟨d, hd, _⟩ := revDrop_decomp
      (((s.data.map goToLower).map replaceInvalid).dropWhile (· == '-'))
    have hh := headHyphen_dropWhile ((s.data.map goToLower).map replaceInvalid)
    cases htc : ((((s.data.map goToLower).map replaceInvalid).dropWhile
        (· == '-')).reverse.dropWhile (· == '-')).reverse with
    | nil => rfl
    | cons c u =>
        rw [htc] at hd
        rw [hd] at hh
        simpa [headHyphen] using hh
  have hlastt : lastNotHyphen
      (trimHyphens ((s.data.map goToLower).map replaceInvalid)) = true := by
    unfold trimHyphens
    exact lastNotHyphen_revDrop _
  set t := trimHyphens ((s.data.map goToLower).map replaceInvalid) with hts
  have hA : (collapseDD t.length t).all isAllowedChar = true :=
    collapseDD_all _ _ hallt
  have hH : headHyphen (collapseDD t.length t) = false :=
    collapseDD_head _ _ hheadt
  have hD : containsDD (collapseDD t.length t) = false :=
    collapseDD_no_dd _ _ le_rfl
  have hL : lastNotHyphen (collapseDD t.length t) = true := by
    rcases List.eq_nil_or_concat t with htn | ⟨L, b, htb⟩
    · rw [htn, collapseDD_of_not (by rfl)]
      rfl
    · have hb : (b == '-') = false := by
        unfold lastNotHyphen at hlastt
        rw [htb, List.concat_eq_append, List.getLast?_concat] at hlastt
        simpa using hlastt
      obtain ⟨g, hg⟩ := collapseDD_suffix (s := [b])
        (by intro c hc; simp at hc; rw [hc]; exact hb) (by simp)
        t.length t ⟨L, by rw [htb, List.concat_eq_append]⟩
      rw [hg]
      unfold lastNotHyphen
      rw [List.getLast?_concat]
      simpa using hb
  simp only [Bool.and_eq_true, Bool.not_eq_true']
  exact ⟨⟨⟨hA, hH⟩, hL⟩, hD⟩

theorem replDD_pic (t : List Char) :
    ∃ u, replDD ('p' :: 'i' :: 'c' :: t) = 'p' :: 'i' :: 'c' :: u := by
  cases t with
  | nil => exact ⟨[], by decide⟩
  | cons c u => exact ⟨replDD (c :: u), rfl⟩

theorem collapseDD_pic : ∀ (fuel : Nat) (t : List Char),
    ∃ u, collapseDD fuel ('p' :: 'i' :: 'c' :: t) = 'p' :: 'i' :: 'c' :: u := by
  intro fuel
  induction fuel with
  | zero => intro t; exact ⟨t, rfl⟩
  | succ n ih =>
      intro t
      rw [show collapseDD (n + 1) ('p' :: 'i' :: 'c' :: t) =
          (if containsDD ('p' :: 'i' :: 'c' :: t) then
            collapseDD n (replDD ('p' :: 'i' :: 'c' :: t))
           else 'p' :: 'i' :: 'c' :: t) from rfl]
      by_cases hc : containsDD ('p' :: 'i' :: 'c' :: t) = true
      · rw [if_pos hc]
        obtain ⟨w, hw⟩ := replDD_pic t
        rw [hw]
        exact ih w
      · rw [if_neg hc]
        exact ⟨t, rfl⟩

theorem trimHyphens_pic (r : List Char) :
    ∃ u, trimHyphens ('p' :: 'i' :: 'c' :: r) = 'p' :: 'i' :: 'c' :: u := by
  unfold trimHyphens
  rw [dropWhile_eq_self_of_head (l := 'p' :: 'i' :: 'c' :: r) rfl]
  obtain ⟨d, hd, hdall⟩ := revDrop_decomp ('p' :: 'i' :: 'c' :: r)
  cases hKc : (('p' :: 'i' :: 'c' :: r).reverse.dropWhile (· == '-')).reverse with
  | nil =>
      exfalso
      rw [hKc, List.nil_append] at hd
      have := hdall 'p' (by rw [← hd]; exact List.mem_cons_self _ _)
      exact absurd this (by decide)
  | cons x K1 =>
      cases hK1 : K1 with
      | nil =>
          exfalso
          rw [hKc, hK1] at hd
          simp only [List.cons_append, List.nil_append] at hd
          obtain ⟨hx, hd2⟩ := List.cons.inj hd
          have := hdall 'i' (by rw [← hd2]; exact List.mem_cons_self _ _)
          exact absurd this (by decide)
      | cons y K2 =>
          cases hK2 : K2 with
          | nil =>
              exfalso
              rw [hKc, hK1, hK2] at hd
              simp only [List.cons_append, List.nil_append] at hd
              obtain ⟨hx, hd1⟩ := List.cons.inj hd
              obtain ⟨hy, hd2⟩ := List.cons.inj hd1
              have := hdall 'c' (by rw [← hd2]; exact List.mem_cons_self _ _)
              exact absurd this (by decide)
          | cons z K3 =>
              rw [hKc, hK1, hK2] at hd
              simp only [List.cons_append] at hd
              obtain ⟨hx, hd1⟩ := List.cons.inj hd
              obtain ⟨hy, hd2⟩ := List.cons.inj hd1
              obtain ⟨hz, hd3⟩ := List.cons.inj hd2
              exact ⟨K3, by rw [← hx, ← hy, ← hz]⟩

/-- The sanitiser keeps the leading `pic` of any input that starts with it. -/
theorem sanitizeName_pic (r : List Char) :
    ∃ u, (sanitizeName (String.mk ('p' :: 'i' :: 'c' :: r))).data =
      'p' :: 'i' :: 'c' :: u := by
  unfold sanitizeName
  simp only [List.map_cons]
  rw [show goToLower 'p' = 'p' by decide, show goToLower 'i' = 'i' by decide,
    show goToLower 'c' = 'c' by decide, show replaceInvalid 'p' = 'p' by decide,
    show replaceInvalid 'i' = 'i' by decide,
    show replaceInvalid 'c' = 'c' by decide]
  obtain ⟨u, hu⟩ := trimHyphens_pic ((r.map goToLower).map replaceInvalid)
  rw [hu]
  obtain ⟨v, hv⟩ := collapseDD_pic ('p' :: 'i' :: 'c' :: u).length u
  rw [hv]
  exact ⟨v, rfl⟩

theorem dropWhile_append_suffix {s : List Char}
    (hs : ∀ c ∈ s, (c == '-') = false) (hne : s ≠ []) :
    ∀ f, ∃ g, (f ++ s).dropWhile (· == '-') = g ++ s := by
  intro f
  induction f with
  | nil =>
      cases s with
      | nil => exact absurd rfl hne
      | cons c s' =>
          refine ⟨[], ?_⟩
          simp only [List.nil_append]
          rw [List.dropWhile_cons, if_neg (by simp [hs c (by simp)])]
  | cons a f' ih =>
      by_cases ha : (a == '-') = true
      · obtain ⟨g, hg⟩ := ih
        refine ⟨g, ?_⟩
        rw [List.cons_append, List.dropWhile_cons, if_pos ha]
        exact hg
      · exact ⟨a :: f', by rw [List.cons_append, List.dropWhile_cons, if_neg ha]⟩

/-- The sanitiser keeps any hyphen-free, allowed suffix (in particular the
hex fingerprint) at the end of its output. -/
theorem sanitizeName_keep_suffix {f s : List Char}
    (hall : ∀ c ∈ s, isAllowedChar c = true)
    (hnh : ∀ c ∈ s, (c == '-') = false) (hne : s ≠ []) :
    ∃ g, (sanitizeName (String.mk (f ++ s))).data = g ++ s := by
  unfold sanitizeName
  have hsall : s.all isAllowedChar = true := List.all_eq_true.mpr hall
  simp only [List.map_append]
  rw [map_goToLower_id hsall, map_replaceInvalid_id hsall]
  unfold trimHyphens
  obtain ⟨g1, hg1⟩ :=
    dropWhile_append_suffix hnh hne ((f.map goToLower).map replaceInvalid)
  rw [hg1]
  have hlast : lastNotHyphen (g1 ++ s) = true :=
    lastNotHyphen_append (lastNotHyphen_of_no_hyphen hnh) hne
  rw [revDrop_eq_self_of_last hlast]
  obtain ⟨g2, hg2⟩ := collapseDD_suffix hnh hne (g1 ++ s).length (g1 ++ s) ⟨g1, rfl⟩
  rw [hg2]
  exact ⟨g2, rfl⟩

/-! ## Claim C3 -/

/-- C3 (amended): for every input triple, `GenerateName` returns a string of
at most 63 characters that starts with the fixed `pic` scope marker and ends
with the 8-hex-character fingerprint; the full identifier grammar (only
lowercase alphanumerics and hyphens, no leading/trailing hyphen, no adjacent
hyphens) is guaranteed on the non-truncating path, i.e. whenever the
sanitised full name fits in 63 characters.  (On the truncating path the
source rebuilds the name from the unsanitised namespace and ingress name, so
the grammar can be violated there — see the counterexample.) -/
theorem c3_generate_name_bounds (ns iname host : String) :
    (GenerateName ns iname host).length ≤ 63 ∧
    (∃ u, (GenerateName ns iname host).data = 'p' :: 'i' :: 'c' :: u) ∧
    (∃ g, (GenerateName ns iname host).data =
      g ++ (shortHashOf ns iname host).data) ∧
    ((sanitizeName ("pic-" ++ ns ++ "-" ++ iname ++ "-" ++
        shortHashOf ns iname host)).length ≤ 63 →
      kubeGrammar (GenerateName ns iname host) = true) := by
  simp only [GenerateName]
  by_cases h63 : (sanitizeName ("pic-" ++ ns ++ "-" ++ iname ++ "-" ++
      shortHashOf ns iname host)).length > 63
  · rw [if_pos h63]
    by_cases hav : ((63 : Int) - (3 + 1 + (ns.length : Int) + 1) -
        (((shortHashOf ns iname host).length : Int) + 1)) > 0
    · rw [if_pos hav]
      refine ⟨?_, ?_, ?_, ?_⟩
      · set A : Int := 63 - (3 + 1 + (ns.length : Int) + 1) -
          (((shortHashOf ns iname host).length : Int) + 1) with hA
        simp only [String.length_append, shortHashOf_length]
        have hp : ("pic-" : String).length = 4 := rfl
        have hm : ("-" : String).length = 1 := rfl
        rw [hp, hm]
        have hAeq : A = 63 - (3 + 1 + (ns.length : Int) + 1) - (8 + 1) := by
          rw [hA, shortHashOf_length]
          norm_num
        have hdl : iname.length = iname.data.length := rfl
        have hdl2 : ns.length = ns.data.length := rfl
        unfold truncIngressName
        by_cases htr : ((iname.length : Int) > A)
        · rw [if_pos htr]
          simp only [String.length_mk, List.length_take]
          have hmin := Nat.min_le_left A.toNat iname.data.length
          omega
        · rw [if_neg htr]
          omega
      · exact ⟨'-' :: (ns ++ "-" ++
          truncIngressName iname ((63 : Int) - (3 + 1 + (ns.length : Int) + 1) -
            (((shortHashOf ns iname host).length : Int) + 1)) ++ "-" ++
          shortHashOf ns iname host).data, rfl⟩
      · exact ⟨("pic-" ++ ns ++ "-" ++
          truncIngressName iname ((63 : Int) - (3 + 1 + (ns.length : Int) + 1) -
            (((shortHashOf ns iname host).length : Int) + 1)) ++ "-").data, rfl⟩
      · intro h
        omega
    · rw [if_neg hav]
      refine ⟨?_, ?_, ?_, ?_⟩
      · rw [String.length_append, shortHashOf_length]
        have hp : ("pic-" : String).length = 4 := rfl
        omega
      · exact ⟨'-' :: (shortHashOf ns iname host).data, rfl⟩
      · exact ⟨("pic-" : String).data, rfl⟩
      · intro h
        omega
  · rw [if_neg h63]
    refine ⟨by omega, ?_, ?_, fun _ => sanitizeName_grammar _⟩
    · exact sanitizeName_pic ('-' :: (ns ++ "-" ++ iname ++ "-" ++
        shortHashOf ns iname host).data)
    · exact sanitizeName_keep_suffix
        (f := ("pic-" ++ ns ++ "-" ++ iname ++ "-").data)
        (fun c hc => (shortHashOf_chars ns iname host c hc).1)
        (fun c hc => (shortHashOf_chars ns iname host c hc).2)
        (shortHashOf_data_ne_nil ns iname host)

set_option maxRecDepth 100000 in
/-- C3 counterexample: with an uppercase namespace and a long ingress name
the truncation branch rebuilds the name from the raw (unsanitised) inputs,
so the output contains uppercase characters, refuting the claim that every
output consists only of lowercase alphanumerics and hyphens. -/
theorem c3_counterexample :
    (GenerateName "AB" "xxxxxxxxxxxxxxxxxxxxxxxxxxxxxxxxxxxxxxxxxxxxxxxx"
        "h").data.all isAllowedChar = false := by
  decide

set_option maxRecDepth 100000 in
/-- Witness for C3 at a concrete triple on the non-truncating path (the
grammar hypothesis of the final conjunct is discharged concretely). -/
theorem c3_generate_name_bounds_witness :
    (GenerateName "default" "myapp" "apphost").length ≤ 63 ∧
    (∃ u, (GenerateName "default" "myapp" "apphost").data =
      'p' :: 'i' :: 'c' :: u) ∧
    (∃ g, (GenerateName "default" "myapp" "apphost").data =
      g ++ (shortHashOf "default" "myapp" "apphost").data) ∧
    kubeGrammar (GenerateName "default" "myapp" "apphost") = true := by
  have h := c3_generate_name_bounds "default" "myapp" "apphost"
  exact ⟨h.1, h.2.1, h.2.2.1, h.2.2.2 (by decide)⟩

/-! ## Claim C8 -/

/-- The priority field of a built target is the priority computation applied
to the path length. -/
theorem buildTarget_priority (cfg : Config) (ingNs : String)
    (p : HTTPIngressPath) (svc : ServiceBackend) :
    (buildTarget cfg ingNs p svc).priority = priorityOfLen p.path.length := by
  simp [buildTarget]

/-- C8 (amended): the priority of a backend target equals
`min(1000, 100 + 10 × len(path))` and lies in `[100, 1000]` for every path
whose length keeps `100 + 10 × len` within `int32` (that is, up to
214748354 characters); beyond that bound the `int32` conversion in the
source wraps — see the counterexample. -/
theorem c8_priority_formula (cfg : Config) (ingNs : String)
    (p : HTTPIngressPath) (svc : ServiceBackend)
    (h : p.path.length ≤ 214748354) :
    (buildTarget cfg ingNs p svc).priority =
      min 1000 (100 + 10 * (p.path.length : Int)) ∧
    100 ≤ (buildTarget cfg ingNs p svc).priority ∧
    (buildTarget cfg ingNs p svc).priority ≤ 1000 := by
  rw [buildTarget_priority]
  unfold priorityOfLen toInt32
  have hmod : (100 + (p.path.length : Int) * 10 + 2147483648) % 4294967296 =
      100 + (p.path.length : Int) * 10 + 2147483648 :=
    Int.emod_eq_of_lt (by omega) (by omega)
  rw [hmod]
  simp only [gt_iff_lt]
  refine ⟨?_, ?_, ?_⟩
  · split_ifs with h1
    · rw [min_eq_left (by omega)]
    · rw [min_eq_right (by omega)]
      omega
  · split_ifs with h1 <;> omega
  · split_ifs with h1 <;> omega

set_option maxRecDepth 100000 in
/-- Witness for C8 at a concrete short path. -/
theorem c8_priority_formula_witness :
    ("/api" : String).length ≤ 214748354 ∧
    ((buildTarget ⟨"t", [], "http"⟩ "default"
          ⟨"/api", none, some ⟨"svc", 80⟩⟩ ⟨"svc", 80⟩).priority =
        min 1000 (100 + 10 * ((("/api" : String).length : Int))) ∧
      100 ≤ (buildTarget ⟨"t", [], "http"⟩ "default"
          ⟨"/api", none, some ⟨"svc", 80⟩⟩ ⟨"svc", 80⟩).priority ∧
      (buildTarget ⟨"t", [], "http"⟩ "default"
          ⟨"/api", none, some ⟨"svc", 80⟩⟩ ⟨"svc", 80⟩).priority ≤ 1000) :=
  ⟨by decide, c8_priority_formula _ _ _ _ (by decide)⟩

/-- C8 counterexample: at a path of 214748355 characters the computation
`int32(100 + len*10)` wraps to a negative priority, so the claimed
`min(1000, 100 + 10 × len)` formula and the `[100, 1000]` range both fail. -/
theorem c8_counterexample :
    (buildTarget ⟨"t", [], "http"⟩ "default"
        ⟨String.mk (List.replicate 214748355 'a'), none, some ⟨"svc", 80⟩⟩
        ⟨"svc", 80⟩).priority = -2147483646 ∧
    (buildTarget ⟨"t", [], "http"⟩ "default"
        ⟨String.mk (List.replicate 214748355 'a'), none, some ⟨"svc", 80⟩⟩
        ⟨"svc", 80⟩).priority ≠
      min 1000 (100 + 10 *
        (((String.mk (List.replicate 214748355 'a')).length : Int))) ∧
    ¬(100 ≤ (buildTarget ⟨"t", [], "http"⟩ "default"
        ⟨String.mk (List.replicate 214748355 'a'), none, some ⟨"svc", 80⟩⟩
        ⟨"svc", 80⟩).priority) := by
  have hl : (String.mk (List.replicate 214748355 'a')).length = 214748355 := by
    rw [String.length_mk, List.length_replicate]
  refine ⟨?_, ?_, ?_⟩
  · rw [buildTarget_priority, hl]
    decide
  · rw [buildTarget_priority, hl]
    decide
  · rw [buildTarget_priority, hl]
    decide

/-! ## Claim C10 -/

/-- C10: `isManaged` returns true exactly when the ingress class name is
`pangolin` or has the `pangolin-` class marker at its start, and the enabled
directive, lowercased, is not `"false"`.  In particular the directive can
only disable management — with a non-matching class the result is false
whatever the directive says. -/
theorem c10_is_managed_iff (ing : Ingress) :
    isManaged ing = (classMatches ing && enabledNotFalse ing) := by
  unfold isManaged classMatches enabledNotFalse
  cases h : lookupStr ing.annotations "pangolin.ingress.k8s.io/enabled" with
  | none => simp
  | some v =>
      by_cases hv : (String.mk (v.data.map goToLower) == "false") = true
      · simp [hv]
      · simp [hv]

/-! ## Claim C5 -/

theorem targetsLoop_iff (cs : List Target) : ∀ ds, targetsLoop cs ds = true ↔
    (ds.length < cs.length ∨ ∃ p ∈ cs.zip ds, targetChanged p.1 p.2 = true) := by
  induction cs with
  | nil => intro ds; simp [targetsLoop]
  | cons cHd cT ih =>
      intro ds
      cases ds with
      | nil => simp [targetsLoop]
      | cons dHd dT =>
          rw [show targetsLoop (cHd :: cT) (dHd :: dT) =
            (targetChanged cHd dHd || targetsLoop cT dT) from rfl]
          simp only [Bool.or_eq_true, ih dT, List.zip_cons_cons,
            List.length_cons]
          constructor
          · rintro (h | h | ⟨p, hp, hq⟩)
            · exact Or.inr ⟨(cHd, dHd), by simp, h⟩
            · exact Or.inl (by omega)
            · exact Or.inr ⟨p, by simp [hp], hq⟩
          · rintro (h | ⟨p, hp, hq⟩)
            · exact Or.inr (Or.inl (by omega))
            · rcases List.mem_cons.mp hp with rfl | hp'
              · exact Or.inl hq
              · exact Or.inr (Or.inr ⟨p, hp', hq⟩)

/-- C5 (amended): `specChanged` returns true exactly when some compared
field differs: a scalar field, an HTTP-configuration field when both
configurations are present, or the target lists (length or any field at any
position; reordering therefore registers as a change).  When exactly one
HTTP configuration is present, its fields are not compared — see the
counterexample. -/
theorem c5_spec_changed_iff (c d : PangolinResourceSpec) :
    specChanged c d = true ↔ specDiffers c d := by
  have habs : (c.targets.length ≠ d.targets.length ∨
      (d.targets.length < c.targets.length ∨
        ∃ p ∈ c.targets.zip d.targets, targetChanged p.1 p.2 = true)) ↔
      targetsDifferClaim c.targets d.targets := by
    unfold targetsDifferClaim
    constructor
    · rintro (h | h | h)
      · exact Or.inl h
      · exact Or.inl (by omega)
      · exact Or.inr h
    · rintro (h | h)
      · exact Or.inl h
      · exact Or.inr (Or.inr h)
  unfold specChanged specDiffers
  simp only [Bool.or_eq_true, decide_eq_true_eq, targetsLoop_iff]
  rw [or_assoc, or_assoc, or_assoc, or_assoc, or_assoc, or_assoc] at *
  constructor
  · rintro (h | h | h | h | h | h)
    · exact .inl h
    · exact .inr (.inl h)
    · exact .inr (.inr (.inl h))
    · exact .inr (.inr (.inr (.inl h)))
    · exact .inr (.inr (.inr (.inr (.inl h))))
    · rcases h with h | h
      · refine Or.inr (Or.inr (Or.inr (Or.inr (Or.inr (Or.inl ?_)))))
        unfold httpConfigDiffer
        cases hc : c.httpConfig with
        | none => rw [hc] at h; simp at h
        | some ch =>
            cases hd : d.httpConfig with
            | none => rw [hc, hd] at h; simp at h
            | some dh =>
                rw [hc, hd] at h
                simp only [Bool.or_eq_true, decide_eq_true_eq] at h
                exact ⟨ch, dh, rfl, rfl, by tauto⟩
      · exact Or.inr (Or.inr (Or.inr (Or.inr (Or.inr (Or.inr
          (habs.mp (by tauto)))))))
  · rintro (h | h | h | h | h | h | h)
    · exact .inl h
    · exact .inr (.inl h)
    · exact .inr (.inr (.inl h))
    · exact .inr (.inr (.inr (.inl h)))
    · exact .inr (.inr (.inr (.inr (.inl h))))
    · obtain ⟨ch, dh, hc, hd, hf⟩ := h
      refine Or.inr (Or.inr (Or.inr (Or.inr (Or.inr (Or.inl ?_)))))
      rw [hc, hd]
      simp only [Bool.or_eq_true, decide_eq_true_eq]
      tauto
    · have := habs.mpr h
      refine Or.inr (Or.inr (Or.inr (Or.inr (Or.inr (Or.inr ?_)))))
      tauto

/-- C5 counterexample: with the current spec lacking an HTTP configuration
and the desired one carrying it (all other fields equal), `specChanged`
returns false although the claim counts this one-sided case as a change. -/
theorem c5_counterexample :
    specChanged
      ⟨"d", true, "http", ⟨"t", "n"⟩, none, []⟩
      ⟨"d", true, "http", ⟨"t", "n"⟩,
        some ⟨"example.com", "app", false, false⟩, []⟩ = false ∧
    specDiffersClaim
      ⟨"d", true, "http", ⟨"t", "n"⟩, none, []⟩
      ⟨"d", true, "http", ⟨"t", "n"⟩,
        some ⟨"example.com", "app", false, false⟩, []⟩ = true := by
  decide

/-! ## Claim C7 -/

/-- C7 (amended): `buildDesiredPangolinResource` succeeds exactly when the
host splits (no wildcard, no IP literal — the `SplitHost` error case the
claim omits) and at least one target remains after dropping paths without a
backend service; every successfully built resource has a nonempty target
list; and the caller's loop step performs no store write and records no
desired name for a host whose build errored (it only emits the InvalidHost
warning). -/
theorem c7_build_no_valid_backends (cfg : Config) (ing : Ingress)
    (host : String) (paths : List HTTPIngressPath) (tn tns : String) :
    ((buildDesiredPangolinResource cfg ing host paths tn tns).isOk =
      ((SplitHost host).isOk && !(buildTargets cfg ing.ns paths).isEmpty)) ∧
    (∀ d, buildDesiredPangolinResource cfg ing host paths tn tns = .ok d →
      d.spec.targets ≠ []) ∧
    (∀ (st : List PangolinResource) (names : List String) (ops : List Op)
        (g : HostPathGroup),
      (buildDesiredPangolinResource cfg ing g.host g.paths tn tns).isOk =
          false →
      hostStep cfg ing tn tns (st, names, ops) g =
        (st, names, ops ++ [Op.event "Warning" "InvalidHost" g.host])) := by
  refine ⟨?_, ?_, ?_⟩
  · unfold buildDesiredPangolinResource
    cases hs : SplitHost host with
    | error e => simp [hs, Except.isOk, Except.toBool]
    | ok pair =>
        by_cases ht : buildTargets cfg ing.ns paths = []
        · simp [hs, ht, Except.isOk, Except.toBool, List.isEmpty_iff]
        · simp [hs, ht, Except.isOk, Except.toBool, List.isEmpty_iff]
  · intro d hd
    unfold buildDesiredPangolinResource at hd
    cases hs : SplitHost host with
    | error e => rw [hs] at hd; exact absurd hd (by simp)
    | ok pair =>
        obtain ⟨s0, d0⟩ := pair
        rw [hs] at hd
        dsimp only at hd
        by_cases ht : buildTargets cfg ing.ns paths = []
        · rw [if_pos ht] at hd
          exact absurd hd (by simp)
        · rw [if_neg ht] at hd
          have hRd := Except.ok.inj hd
          rw [← hRd]
          exact ht
  · intro st names ops g hg
    unfold hostStep
    cases hb : buildDesiredPangolinResource cfg ing g.host g.paths tn tns with
    | error e => rfl
    | ok d => rw [hb] at hg; simp [Except.isOk, Except.toBool] at hg

/-- C7 counterexample: for a wildcard host with a perfectly valid backend
path, the builder still errors (invalid host), although after dropping
backend-less paths the target list is nonempty — so "errors exactly when
zero targets remain" fails in the only-if direction. -/
theorem c7_counterexample :
    (buildDesiredPangolinResource ⟨"t", [], "http"⟩
        ⟨"myapp", "default", "u", [], some "pangolin", []⟩
        "*.example.com" [⟨"/", none, some ⟨"svc", 80⟩⟩] "t" "ns").isOk =
      false ∧
    buildTargets ⟨"t", [], "http"⟩ "default" [⟨"/", none, some ⟨"svc", 80⟩⟩]
      ≠ [] := by
  refine ⟨by decide, by decide⟩

/-- Witness for C7: the error-path conclusions at a concrete wildcard
host. -/
theorem c7_build_no_valid_backends_witness :
    ((buildDesiredPangolinResource ⟨"t", [], "http"⟩
        ⟨"myapp", "default", "u", [], some "pangolin", []⟩
        "*.example.com" [⟨"/", none, some ⟨"svc", 80⟩⟩] "t" "ns").isOk =
      ((SplitHost "*.example.com").isOk &&
        !(buildTargets ⟨"t", [], "http"⟩ "default"
            [⟨"/", none, some ⟨"svc", 80⟩⟩]).isEmpty)) ∧
    hostStep ⟨"t", [], "http"⟩
        ⟨"myapp", "default", "u", [], some "pangolin", []⟩ "t" "ns"
        ([], [], []) ⟨"*.example.com", [⟨"/", none, some ⟨"svc", 80⟩⟩]⟩ =
      ([], [], [Op.event "Warning" "InvalidHost" "*.example.com"]) :=
  ⟨(c7_build_no_valid_backends ⟨"t", [], "http"⟩
      ⟨"myapp", "default", "u", [], some "pangolin", []⟩
      "*.example.com" [⟨"/", none, some ⟨"svc", 80⟩⟩] "t" "ns").1,
   (c7_build_no_valid_backends ⟨"t", [], "http"⟩
      ⟨"myapp", "default", "u", [], some "pangolin", []⟩
      "*.example.com" [⟨"/", none, some ⟨"svc", 80⟩⟩] "t" "ns").2.2
    [] [] [] ⟨"*.example.com", [⟨"/", none, some ⟨"svc", 80⟩⟩]⟩ (by decide)⟩

/-! ## Claim C6 -/

theorem alookup_insertPaths (h : String) (ps : List HTTPIngressPath) :
    ∀ (m : List (String × List HTTPIngressPath)) (h' : String),
    alookup (insertPaths m h ps) h' =
      if h' = h then some ((alookup m h').getD [] ++ ps) else alookup m h' := by
  intro m
  induction m with
  | nil =>
      intro h'
      by_cases hh : h' = h
      · subst hh
        simp [insertPaths, alookup]
      · simp [insertPaths, alookup, if_neg hh]
        intro he
        exact absurd he.symm hh
  | cons kv rest ih =>
      intro h'
      obtain ⟨k, v⟩ := kv
      by_cases hk : (k == h) = true
      · have hk' : k = h := by simpa using hk
        rw [show insertPaths ((k, v) :: rest) h ps =
            (k, v ++ ps) :: rest from by simp [insertPaths, hk]]
        by_cases hh : h' = h
        · subst hh
          simp [alookup, hk']
        · have : (k == h') = false := by
            simp
            intro he
            exact absurd (he.symm.trans hk') hh
          simp [alookup, this, if_neg hh]
      · have hk' : ¬(k = h) := by simpa using hk
        rw [show insertPaths ((k, v) :: rest) h ps =
            (k, v) :: insertPaths rest h ps from by simp [insertPaths, hk]]
        by_cases hkh : (k == h') = true
        · have hkh' : k = h' := by simpa using hkh
          have hh : ¬(h' = h) := by rw [← hkh']; exact hk'
          simp [alookup, hkh, if_neg hh]
        · simp only [alookup, List.find?_cons, hkh]
          have := ih h'
          simp only [alookup] at this
          rw [this]

theorem collectLoop_events (rules : List IngressRule) :
    ∀ m, (collectLoop rules m).2 = emptyHostEvents rules := by
  induction rules with
  | nil => intro m; rfl
  | cons r rest ih =>
      intro m
      by_cases hr : (r.host == "") = true
      · rw [show collectLoop (r :: rest) m =
            ((collectLoop rest m).1,
             Op.event "Warning" "EmptyHost" "Rule with empty host skipped" ::
               (collectLoop rest m).2) from by
          simp only [collectLoop, hr, if_pos]]
        simp only [emptyHostEvents, List.filter_cons, hr, List.map_cons]
        rw [ih m]
        rfl
      · cases hh : r.http with
        | none =>
            rw [show collectLoop (r :: rest) m = collectLoop rest m from by
              simp only [collectLoop, hr, if_neg, Bool.false_eq_true,
                not_false_iff, hh]]
            simp only [emptyHostEvents, List.filter_cons, hr]
            exact ih m
        | some v =>
            rw [show collectLoop (r :: rest) m =
                collectLoop rest (insertPaths m r.host v.paths) from by
              simp only [collectLoop, hr, if_neg, Bool.false_eq_true,
                not_false_iff, hh]]
            simp only [emptyHostEvents, List.filter_cons, hr]
            exact ih _

theorem collectLoop_alookup (rules : List IngressRule) :
    ∀ m (h : String), h ≠ "" →
    alookup (collectLoop rules m).1 h =
      (match alookup m h with
       | some v => some (v ++ contribPaths rules h)
       | none =>
           if hostHasHTTPRule rules h then some (contribPaths rules h)
           else none) := by
  induction rules with
  | nil =>
      intro m h hne
      simp only [collectLoop, contribPaths, List.foldr_nil, hostHasHTTPRule,
        List.any_nil, if_neg]
      cases hm : alookup m h with
      | none => simp
      | some v => simp
  | cons r rest ih =>
      intro m h hne
      by_cases hr : (r.host == "") = true
      · have hr' : r.host = "" := by simpa using hr
        have hstep : (collectLoop (r :: rest) m).1 = (collectLoop rest m).1 := by
          simp only [collectLoop, hr, if_pos]
        rw [hstep, ih m h hne]
        have hhost : (r.host = h) = False := by
          simp only [eq_iff_iff, iff_false]
          rw [hr']
          exact fun he => hne he.symm
        have hc : contribPaths (r :: rest) h = contribPaths rest h := by
          simp only [contribPaths, List.foldr_cons, hhost]
          simp
        have ha : hostHasHTTPRule (r :: rest) h = hostHasHTTPRule rest h := by
          simp only [hostHasHTTPRule, List.any_cons]
          have : (r.host == h) = false := by
            simp only [beq_eq_false_iff_ne]
            rw [hr']
            exact fun he => hne he.symm
          simp [this]
        rw [hc, ha]
      · cases hh : r.http with
        | none =>
            have hstep : (collectLoop (r :: rest) m).1 =
                (collectLoop rest m).1 := by
              simp only [collectLoop, hr, if_neg, Bool.false_eq_true,
                not_false_iff, hh]
            rw [hstep, ih m h hne]
            have hc : contribPaths (r :: rest) h = contribPaths rest h := by
              simp only [contribPaths, List.foldr_cons]
              by_cases hrh : r.host = h
              · simp [hrh, rulePaths, hh]
              · simp [hrh]
            have ha : hostHasHTTPRule (r :: rest) h = hostHasHTTPRule rest h := by
              simp [hostHasHTTPRule, List.any_cons, hh]
            rw [hc, ha]
        | some v =>
            have hstep : (collectLoop (r :: rest) m).1 =
                (collectLoop rest (insertPaths m r.host v.paths)).1 := by
              simp only [collectLoop, hr, if_neg, Bool.false_eq_true,
                not_false_iff, hh]
            rw [hstep, ih _ h hne, alookup_insertPaths]
            by_cases hrh : h = r.host
            · rw [if_pos hrh]
              have hc : contribPaths (r :: rest) h =
                  v.paths ++ contribPaths rest h := by
                simp only [contribPaths, List.foldr_cons, hrh.symm]
                simp [rulePaths, hh]
              have ha : hostHasHTTPRule (r :: rest) h = true := by
                simp [hostHasHTTPRule, List.any_cons, hh, hrh.symm]
              rw [hc, ha]
              cases hm : alookup m h with
              | none => simp
              | some w => simp
            · rw [if_neg hrh]
              have hc : contribPaths (r :: rest) h = contribPaths rest h := by
                simp only [contribPaths, List.foldr_cons]
                have : (r.host = h) = False := by
                  simp only [eq_iff_iff, iff_false]
                  exact fun he => hrh he.symm
                simp [this]
              have ha : hostHasHTTPRule (r :: rest) h =
                  hostHasHTTPRule rest h := by
                simp only [hostHasHTTPRule, List.any_cons]
                have : (r.host == h) = false := by
                  simp only [beq_eq_false_iff_ne]
                  exact fun he => hrh he.symm
                simp [this]
              rw [hc, ha]

theorem akeys_insertPaths (h : String) (ps : List HTTPIngressPath) :
    ∀ m, akeys (insertPaths m h ps) =
      if h ∈ akeys m then akeys m else akeys m ++ [h] := by
  intro m
  induction m with
  | nil => simp [insertPaths, akeys]
  | cons kv rest ih =>
      obtain ⟨k, v⟩ := kv
      by_cases hk : (k == h) = true
      · have hk' : k = h := by simpa using hk
        rw [show insertPaths ((k, v) :: rest) h ps =
            (k, v ++ ps) :: rest from by simp [insertPaths, hk]]
        simp [akeys, hk']
      · have hk' : ¬(k = h) := by simpa using hk
        rw [show insertPaths ((k, v) :: rest) h ps =
            (k, v) :: insertPaths rest h ps from by simp [insertPaths, hk]]
        simp only [akeys, List.map_cons] at ih ⊢
        rw [ih]
        by_cases hm : h ∈ rest.map (·.1)
        · rw [if_pos hm, if_pos (List.mem_cons.mpr (Or.inr hm))]
        · have hnm : ¬(h ∈ (k :: rest.map (·.1))) := by
            rw [List.mem_cons]
            rintro (he | he)
            · exact hk' he.symm
            · exact hm he
          rw [if_neg hm, if_neg hnm, List.cons_append]

theorem collectLoop_akeys_nodup (rules : List IngressRule) :
    ∀ m, (akeys m).Nodup → (akeys (collectLoop rules m).1).Nodup := by
  induction rules with
  | nil => intro m hm; exact hm
  | cons r rest ih =>
      intro m hm
      by_cases hr : (r.host == "") = true
      · have hstep : (collectLoop (r :: rest) m).1 = (collectLoop rest m).1 := by
          simp only [collectLoop, hr, if_pos]
        rw [hstep]
        exact ih m hm
      · cases hh : r.http with
        | none =>
            have hstep : (collectLoop (r :: rest) m).1 =
                (collectLoop rest m).1 := by
              simp only [collectLoop, hr, if_neg, Bool.false_eq_true,
                not_false_iff, hh]
            rw [hstep]
            exact ih m hm
        | some v =>
            have hstep : (collectLoop (r :: rest) m).1 =
                (collectLoop rest (insertPaths m r.host v.paths)).1 := by
              simp only [collectLoop, hr, if_neg, Bool.false_eq_true,
                not_false_iff, hh]
            rw [hstep]
            refine ih _ ?_
            rw [akeys_insertPaths]
            by_cases hmem : r.host ∈ akeys m
            · rw [if_pos hmem]; exact hm
            · rw [if_neg hmem]
              simp [List.nodup_append, hm, hmem]

theorem collectLoop_akeys_no_empty (rules : List IngressRule) :
    ∀ m, "" ∉ akeys m → "" ∉ akeys (collectLoop rules m).1 := by
  induction rules with
  | nil => intro m hm; exact hm
  | cons r rest ih =>
      intro m hm
      by_cases hr : (r.host == "") = true
      · have hstep : (collectLoop (r :: rest) m).1 = (collectLoop rest m).1 := by
          simp only [collectLoop, hr, if_pos]
        rw [hstep]
        exact ih m hm
      · cases hh : r.http with
        | none =>
            have hstep : (collectLoop (r :: rest) m).1 =
                (collectLoop rest m).1 := by
              simp only [collectLoop, hr, if_neg, Bool.false_eq_true,
                not_false_iff, hh]
            rw [hstep]
            exact ih m hm
        | some v =>
            have hstep : (collectLoop (r :: rest) m).1 =
                (collectLoop rest (insertPaths m r.host v.paths)).1 := by
              simp only [collectLoop, hr, if_neg, Bool.false_eq_true,
                not_false_iff, hh]
            rw [hstep]
            refine ih _ ?_
            rw [akeys_insertPaths]
            by_cases hmem : r.host ∈ akeys m
            · rw [if_pos hmem]; exact hm
            · rw [if_neg hmem]
              simp only [List.mem_append, List.mem_singleton]
              rintro (habs | habs)
              · exact hm habs
              · exact absurd habs.symm (by simpa using hr)

theorem alookup_isSome_iff (h : String) :
    ∀ m, (alookup m h).isSome = true ↔ h ∈ akeys m := by
  intro m
  induction m with
  | nil => simp [alookup, akeys]
  | cons kv rest ih =>
      obtain ⟨k, v⟩ := kv
      by_cases hk : (k == h) = true
      · have hk' : k = h := by simpa using hk
        simp [alookup, akeys, List.find?_cons, hk, hk']
      · have hk' : ¬(k = h) := by simpa using hk
        simp only [alookup, akeys, List.find?_cons, hk, List.map_cons,
          List.mem_cons]
        simp only [alookup, akeys] at ih
        rw [ih]
        constructor
        · exact Or.inr
        · rintro (he | he)
          · exact absurd he.symm hk'
          · exact he

theorem alookup_of_mem_nodup :
    ∀ (m : List (String × List HTTPIngressPath)), (akeys m).Nodup →
    ∀ k v, (k, v) ∈ m → alookup m k = some v := by
  intro m
  induction m with
  | nil => intro _ k v hm; simp at hm
  | cons kv rest ih =>
      intro hnd k v hm
      obtain ⟨k0, v0⟩ := kv
      simp only [akeys, List.map_cons, List.nodup_cons] at hnd
      rcases List.mem_cons.mp hm with he | hm'
      · have h1 : k = k0 := congrArg Prod.fst he
        have h2 : v = v0 := congrArg Prod.snd he
        subst h1
        subst h2
        simp [alookup, List.find?_cons]
      · have hk0 : (k0 == k) = false := by
          simp only [beq_eq_false_iff_ne]
          intro he
          apply hnd.1
          rw [he]
          exact List.mem_map.mpr ⟨(k, v), hm', rfl⟩
        simp only [alookup, List.find?_cons, hk0]
        have := ih hnd.2 k v hm'
        simpa [alookup] using this

/-- `collectHostPaths` unfolded to its two components. -/
theorem collectHostPaths_eq (rules : List IngressRule) :
    collectHostPaths rules =
      ((collectLoop rules []).1.map (fun p => ⟨p.1, p.2⟩),
        (collectLoop rules []).2) := by
  unfold collectHostPaths
  rcases hc : collectLoop rules [] with ⟨m, evs⟩
  rfl

/-- C6 (amended): `collectHostPaths` emits one `EmptyHost` warning per
empty-host rule (merging such rules into no group); it produces exactly one
group per distinct non-empty host that appears in at least one rule with an
HTTP section, and each group's path list is the concatenation of the paths
of all rules with that host, in rule order.  A host all of whose rules lack
an HTTP section gets no group, but a host whose rules carry HTTP sections
with zero total paths does get a (possibly empty) group — the Go map
assignment inserts the key even when no paths are appended, which is the
part of the original claim that fails (see the counterexample). -/
theorem c6_collect_host_paths (rules : List IngressRule) :
    (collectHostPaths rules).2 = emptyHostEvents rules ∧
    ((collectHostPaths rules).1.map (·.host)).Nodup ∧
    (∀ h : String, (∃ g ∈ (collectHostPaths rules).1, g.host = h) ↔
      (h ≠ "" ∧ hostHasHTTPRule rules h = true)) ∧
    (∀ g ∈ (collectHostPaths rules).1, g.paths = contribPaths rules g.host) := by
  rw [collectHostPaths_eq]
  have hkeys : ((collectLoop rules []).1.map
      (fun p => (⟨p.1, p.2⟩ : HostPathGroup))).map (·.host) =
      akeys (collectLoop rules []).1 := by
    rw [List.map_map]
    rfl
  refine ⟨collectLoop_events rules [], ?_, ?_, ?_⟩
  · show (((collectLoop rules []).1.map (fun p => (⟨p.1, p.2⟩ : HostPathGroup))).map
      (·.host)).Nodup
    rw [hkeys]
    exact collectLoop_akeys_nodup rules [] (by simp [akeys])
  · intro h
    constructor
    · rintro ⟨g, hg, rfl⟩
      obtain ⟨p, hp, rfl⟩ := List.mem_map.mp hg
      have hmem : p.1 ∈ akeys (collectLoop rules []).1 :=
        List.mem_map.mpr ⟨p, hp, rfl⟩
      have hne : p.1 ≠ "" := by
        intro habs
        exact collectLoop_akeys_no_empty rules [] (by simp [akeys])
          (habs ▸ hmem)
      refine ⟨hne, ?_⟩
      have hsome := (alookup_isSome_iff p.1 _).mpr hmem
      rw [collectLoop_alookup rules [] p.1 hne] at hsome
      simp only [show alookup [] p.1 = none from rfl] at hsome
      by_cases hhr : hostHasHTTPRule rules p.1 = true
      · exact hhr
      · rw [if_neg hhr] at hsome
        simp at hsome
    · rintro ⟨hne, hhr⟩
      have : (alookup (collectLoop rules []).1 h).isSome = true := by
        rw [collectLoop_alookup rules [] h hne]
        simp only [show alookup [] h = none from rfl]
        rw [if_pos hhr]
        rfl
      have hmem := (alookup_isSome_iff h _).mp this
      obtain ⟨p, hp, hph⟩ := List.mem_map.mp hmem
      exact ⟨⟨p.1, p.2⟩, List.mem_map.mpr ⟨p, hp, rfl⟩, hph⟩
  · intro g hg
    obtain ⟨p, hp, rfl⟩ := List.mem_map.mp hg
    have hmem : p.1 ∈ akeys (collectLoop rules []).1 :=
      List.mem_map.mpr ⟨p, hp, rfl⟩
    have hne : p.1 ≠ "" := by
      intro habs
      exact collectLoop_akeys_no_empty rules [] (by simp [akeys]) (habs ▸ hmem)
    have hnd : (akeys (collectLoop rules []).1).Nodup :=
      collectLoop_akeys_nodup rules [] (by simp [akeys])
    have hlook := alookup_of_mem_nodup _ hnd p.1 p.2 (by
      rcases p with ⟨k, v⟩
      exact hp)
    rw [collectLoop_alookup rules [] p.1 hne] at hlook
    simp only [show alookup [] p.1 = none from rfl] at hlook
    by_cases hhr : hostHasHTTPRule rules p.1 = true
    · rw [if_pos hhr] at hlook
      exact (Option.some.inj hlook).symm
    · rw [if_neg hhr] at hlook
      simp at hlook

/-- C6 counterexample: a single rule with a non-empty host whose HTTP
section has zero paths contributes no paths, yet `collectHostPaths` still
produces a group for that host (with an empty path list), contradicting the
claim that no group is produced for a host to which no rule contributed
paths. -/
theorem c6_counterexample :
    collectHostPaths [⟨"a.example.com", some ⟨[]⟩⟩] =
      ([⟨"a.example.com", []⟩], []) ∧
    contribPaths [⟨"a.example.com", some ⟨[]⟩⟩] "a.example.com" = [] := by
  refine ⟨by decide, by decide⟩

/-- Witness for C6: the group characterisation applied at a concrete rule
list with a merged host. -/
theorem c6_collect_host_paths_witness :
    ((⟨"a.example.com",
        [⟨"/x", none, some ⟨"s1", 80⟩⟩, ⟨"/y", none, some ⟨"s2", 81⟩⟩]⟩ :
      HostPathGroup) ∈
      (collectHostPaths
        [⟨"a.example.com", some ⟨[⟨"/x", none, some ⟨"s1", 80⟩⟩]⟩⟩,
         ⟨"a.example.com", some ⟨[⟨"/y", none, some ⟨"s2", 81⟩⟩]⟩⟩]).1) ∧
    (⟨"a.example.com",
        [⟨"/x", none, some ⟨"s1", 80⟩⟩, ⟨"/y", none, some ⟨"s2", 81⟩⟩]⟩ :
      HostPathGroup).paths =
      contribPaths
        [⟨"a.example.com", some ⟨[⟨"/x", none, some ⟨"s1", 80⟩⟩]⟩⟩,
         ⟨"a.example.com", some ⟨[⟨"/y", none, some ⟨"s2", 81⟩⟩]⟩⟩]
        (⟨"a.example.com",
          [⟨"/x", none, some ⟨"s1", 80⟩⟩, ⟨"/y", none, some ⟨"s2", 81⟩⟩]⟩ :
        HostPathGroup).host :=
  ⟨by decide,
   (c6_collect_host_paths
      [⟨"a.example.com", some ⟨[⟨"/x", none, some ⟨"s1", 80⟩⟩]⟩⟩,
       ⟨"a.example.com", some ⟨[⟨"/y", none, some ⟨"s2", 81⟩⟩]⟩⟩]).2.2.2
    ⟨"a.example.com",
      [⟨"/x", none, some ⟨"s1", 80⟩⟩, ⟨"/y", none, some ⟨"s2", 81⟩⟩]⟩
    (by decide)⟩

/-! ## Lemmas: the object store and the reconciliation loop (C1, C4) -/

theorem targetChanged_refl (t : Target) : targetChanged t t = false := by
  simp [targetChanged]

theorem targetsLoop_refl (l : List Target) : targetsLoop l l = false := by
  induction l with
  | nil => rfl
  | cons t rest ih => simp [targetsLoop, targetChanged_refl, ih]

theorem specChanged_refl (s : PangolinResourceSpec) :
    specChanged s s = false := by
  unfold specChanged
  cases hc : s.httpConfig with
  | none => simp [targetsLoop_refl]
  | some ch => simp [targetsLoop_refl]

theorem getPR_append (s1 s2 : List PangolinResource) (ns n : String) :
    getPR (s1 ++ s2) ns n = (getPR s1 ns n).or (getPR s2 ns n) :=
  List.find?_append

theorem getPR_updatePR_ne (ns n : String) (sp : PangolinResourceSpec)
    (ns' n' : String) (h : n' ≠ n) :
    ∀ store, getPR (updatePR store ns n sp) ns' n' = getPR store ns' n' := by
  intro store
  induction store with
  | nil => rfl
  | cons r rest ih =>
      by_cases hr : (r.ns == ns && r.name == n) = true
      · rw [show updatePR (r :: rest) ns n sp = { r with spec := sp } :: rest
            from by simp [updatePR, hr]]
        have hname : (r.name == n') = false := by
          simp only [Bool.and_eq_true, beq_iff_eq] at hr
          simp only [beq_eq_false_iff_ne, hr.2]
          exact fun he => h he.symm
        unfold getPR
        rw [List.find?_cons, List.find?_cons]
        simp only [hname, Bool.and_false]
      · rw [show updatePR (r :: rest) ns n sp = r :: updatePR rest ns n sp
            from by simp [updatePR, hr]]
        unfold getPR
        rw [List.find?_cons, List.find?_cons]
        by_cases hp : (r.ns == ns' && r.name == n') = true
        · rw [hp]
        · rw [show (r.ns == ns' && r.name == n') = false from by
            simpa using hp]
          exact ih

theorem getPR_updatePR_self (ns n : String) (sp : PangolinResourceSpec) :
    ∀ store e, getPR store ns n = some e →
      getPR (updatePR store ns n sp) ns n = some { e with spec := sp } := by
  intro store
  induction store with
  | nil => intro e he; simp [getPR] at he
  | cons r rest ih =>
      intro e he
      by_cases hr : (r.ns == ns && r.name == n) = true
      · have he' : r = e := Option.some.inj (by
          unfold getPR at he
          rwa [List.find?_cons, hr] at he)
        subst he'
        rw [show updatePR (r :: rest) ns n sp = { r with spec := sp } :: rest
            from by simp [updatePR, hr]]
        unfold getPR
        rw [List.find?_cons]
        have hcond : ({ r with spec := sp }.ns == ns &&
            { r with spec := sp }.name == n) = true := hr
        rw [hcond]
      · rw [show updatePR (r :: rest) ns n sp = r :: updatePR rest ns n sp
            from by simp [updatePR, hr]]
        unfold getPR at he ⊢
        rw [List.find?_cons] at he
        rw [List.find?_cons]
        rw [show (r.ns == ns && r.name == n) = false from by simpa using hr]
          at he ⊢
        exact ih e he

/-- After `reconcilePangolinResource`, the object at the desired key exists
and its spec compares as unchanged against the desired spec. -/
theorem reconcilePR_getPR (store : List PangolinResource)
    (d : PangolinResource) :
    ∃ e, getPR (reconcilePR store d).1 d.ns d.name = some e ∧
      specChanged e.spec d.spec = false := by
  unfold reconcilePR
  cases hg : getPR store d.ns d.name with
  | none =>
      refine ⟨d, ?_, specChanged_refl _⟩
      show getPR (store ++ [d]) d.ns d.name = some d
      rw [getPR_append, hg]
      simp [getPR, List.find?_cons]
  | some e =>
      dsimp only
      by_cases hc : specChanged e.spec d.spec = true
      · rw [if_pos hc]
        exact ⟨{ e with spec := d.spec }, getPR_updatePR_self _ _ _ store e hg,
          specChanged_refl _⟩
      · rw [if_neg hc]
        exact ⟨e, hg, by simpa using hc⟩

theorem find?_filter_of_imp {α : Type} (p q : α → Bool)
    (h : ∀ x, p x = true → q x = true) :
    ∀ l : List α, (l.filter q).find? p = l.find? p := by
  intro l
  induction l with
  | nil => rfl
  | cons a rest ih =>
      by_cases hq : q a = true
      · rw [show (a :: rest).filter q = a :: rest.filter q from by
          simp [List.filter_cons, hq]]
        rw [List.find?_cons, List.find?_cons]
        cases hp : p a with
        | true => rfl
        | false => exact ih
      · rw [show (a :: rest).filter q = rest.filter q from by
          simp [List.filter_cons, hq]]
        rw [List.find?_cons]
        cases hp : p a with
        | true => exact absurd (h a hp) hq
        | false => exact ih

theorem writeFree_append (a b : List Op) :
    writeFree (a ++ b) = (writeFree a && writeFree b) := by
  simp [writeFree, List.all_append]

theorem writeFree_emptyHostEvents (rules : List IngressRule) :
    writeFree (emptyHostEvents rules) = true := by
  unfold writeFree emptyHostEvents
  rw [List.all_eq_true]
  intro x hx
  obtain ⟨r, _, rfl⟩ := List.mem_map.mp hx
  rfl

theorem writeFree_collect (rules : List IngressRule) :
    writeFree (collectHostPaths rules).2 = true := by
  rw [collectHostPaths_eq, collectLoop_events rules []]
  exact writeFree_emptyHostEvents rules

/-- The names accumulated by the host loop are the initial list followed by
the names of the successfully built resources, in order. -/
theorem fold_names (cfg : Config) (ing : Ingress) (tn tns : String) :
    ∀ (gs : List HostPathGroup) s ns0 ops0,
    (gs.foldl (hostStep cfg ing tn tns) (s, ns0, ops0)).2.1 =
      ns0 ++ (builds cfg ing tn tns gs).map (·.name) := by
  intro gs
  induction gs with
  | nil => intro s ns0 ops0; simp [builds]
  | cons g gs ih =>
      intro s ns0 ops0
      rw [List.foldl_cons]
      cases hb : buildDesiredPangolinResource cfg ing g.host g.paths tn tns with
      | error e =>
          rw [show hostStep cfg ing tn tns (s, ns0, ops0) g =
              (s, ns0, ops0 ++ [Op.event "Warning" "InvalidHost" g.host])
            from by unfold hostStep; rw [hb]]
          rw [ih]
          rw [show builds cfg ing tn tns (g :: gs) = builds cfg ing tn tns gs
            from by unfold builds; rw [List.filterMap_cons, hb]; rfl]
      | ok d =>
          rw [show hostStep cfg ing tn tns (s, ns0, ops0) g =
              ((reconcilePR s d).1, ns0 ++ [d.name],
                ops0 ++ (reconcilePR s d).2)
            from by
              unfold hostStep
              rw [hb]]
          rw [ih]
          rw [show builds cfg ing tn tns (g :: gs) =
              d :: builds cfg ing tn tns gs
            from by unfold builds; rw [List.filterMap_cons, hb]; rfl]
          simp

/-- `reconcilePangolinResource` on an already-converged key is a no-op. -/
theorem reconcilePR_noop (store : List PangolinResource)
    (d e : PangolinResource) (hg : getPR store d.ns d.name = some e)
    (hsc : specChanged e.spec d.spec = false) :
    reconcilePR store d = (store, []) := by
  unfold reconcilePR
  rw [hg]
  dsimp only
  rw [if_neg (by simp [hsc])]

/-- `reconcilePangolinResource` leaves every key with a different name
untouched. -/
theorem reconcilePR_preserve (store : List PangolinResource)
    (d : PangolinResource) (ns n : String) (h : d.name ≠ n) :
    getPR (reconcilePR store d).1 ns n = getPR store ns n := by
  unfold reconcilePR
  cases hg : getPR store d.ns d.name with
  | none =>
      dsimp only
      rw [getPR_append]
      rw [show getPR [d] ns n = none from by
        unfold getPR
        rw [List.find?_cons]
        rw [show (d.ns == ns && d.name == n) = false from by
          simp [beq_eq_false_iff_ne.mpr h]]
        rfl]
      exact Option.or_none
  | some e =>
      dsimp only
      by_cases hc : specChanged e.spec d.spec = true
      · rw [if_pos hc]
        exact getPR_updatePR_ne d.ns d.name d.spec ns n h.symm store
      · rw [if_neg hc]

/-- The host loop leaves every key whose name is outside the built-name set
untouched. -/
theorem fold_preserve_getPR (cfg : Config) (ing : Ingress)
    (tn tns ns n : String) :
    ∀ (gs : List HostPathGroup) s ns0 ops0,
    (∀ d ∈ builds cfg ing tn tns gs, d.name ≠ n) →
    getPR ((gs.foldl (hostStep cfg ing tn tns) (s, ns0, ops0)).1) ns n =
      getPR s ns n := by
  intro gs
  induction gs with
  | nil => intro s ns0 ops0 _; rfl
  | cons g gs ih =>
      intro s ns0 ops0 hne
      rw [List.foldl_cons]
      cases hb : buildDesiredPangolinResource cfg ing g.host g.paths tn tns with
      | error e =>
          have hbs : builds cfg ing tn tns (g :: gs) =
              builds cfg ing tn tns gs := by
            unfold builds; rw [List.filterMap_cons, hb]; rfl
          rw [show hostStep cfg ing tn tns (s, ns0, ops0) g =
              (s, ns0, ops0 ++ [Op.event "Warning" "InvalidHost" g.host])
            from by unfold hostStep; rw [hb]]
          exact ih s ns0 _ (fun d hd => hne d (by rw [hbs]; exact hd))
      | ok d0 =>
          have hbs : builds cfg ing tn tns (g :: gs) =
              d0 :: builds cfg ing tn tns gs := by
            unfold builds; rw [List.filterMap_cons, hb]; rfl
          rw [show hostStep cfg ing tn tns (s, ns0, ops0) g =
              ((reconcilePR s d0).1, ns0 ++ [d0.name],
                ops0 ++ (reconcilePR s d0).2)
            from by unfold hostStep; rw [hb]]
          rw [ih _ _ _ (fun d hd =>
            hne d (by rw [hbs]; exact List.mem_cons_of_mem _ hd))]
          exact reconcilePR_preserve s d0 ns n
            (hne d0 (by rw [hbs]; exact List.mem_cons_self _ _))

/-- After the host loop, every built resource (with pairwise-distinct
names) sits in the resulting store with a spec that compares as
unchanged. -/
theorem fold_establishes (cfg : Config) (ing : Ingress) (tn tns : String) :
    ∀ (gs : List HostPathGroup) s ns0 ops0,
    ((builds cfg ing tn tns gs).map (·.name)).Nodup →
    ∀ d ∈ builds cfg ing tn tns gs,
      ∃ e, getPR ((gs.foldl (hostStep cfg ing tn tns) (s, ns0, ops0)).1)
            d.ns d.name = some e ∧ specChanged e.spec d.spec = false := by
  intro gs
  induction gs with
  | nil => intro s ns0 ops0 _ d hd; simp [builds] at hd
  | cons g gs ih =>
      intro s ns0 ops0 hnd d hd
      rw [List.foldl_cons]
      cases hb : buildDesiredPangolinResource cfg ing g.host g.paths tn tns with
      | error e =>
          have hbs : builds cfg ing tn tns (g :: gs) =
              builds cfg ing tn tns gs := by
            unfold builds; rw [List.filterMap_cons, hb]; rfl
          rw [hbs] at hnd hd
          rw [show hostStep cfg ing tn tns (s, ns0, ops0) g =
              (s, ns0, ops0 ++ [Op.event "Warning" "InvalidHost" g.host])
            from by unfold hostStep; rw [hb]]
          exact ih s ns0 _ hnd d hd
      | ok d0 =>
          have hbs : builds cfg ing tn tns (g :: gs) =
              d0 :: builds cfg ing tn tns gs := by
            unfold builds; rw [List.filterMap_cons, hb]; rfl
          rw [hbs] at hnd hd
          rw [List.map_cons, List.nodup_cons] at hnd
          rw [show hostStep cfg ing tn tns (s, ns0, ops0) g =
              ((reconcilePR s d0).1, ns0 ++ [d0.name],
                ops0 ++ (reconcilePR s d0).2)
            from by unfold hostStep; rw [hb]]
          rcases List.mem_cons.mp hd with rfl | hd2
          · obtain ⟨e, he, hsc⟩ := reconcilePR_getPR s d
            refine ⟨e, ?_, hsc⟩
            have hpres := fold_preserve_getPR cfg ing tn tns d.ns d.name gs
              ((reconcilePR s d).1) (ns0 ++ [d.name])
              (ops0 ++ (reconcilePR s d).2)
              (fun d2 hd2 heq =>
                hnd.1 (heq ▸ List.mem_map_of_mem (·.name) hd2))
            rw [hpres]
            exact he
          · exact ih _ _ _ hnd.2 d hd2

/-- If every built resource is already converged in the store, the host
loop leaves the store unchanged and appends only events. -/
theorem fold_noop (cfg : Config) (ing : Ingress) (tn tns : String) :
    ∀ (gs : List HostPathGroup) s ns0 ops0,
    (∀ d ∈ builds cfg ing tn tns gs,
      ∃ e, getPR s d.ns d.name = some e ∧ specChanged e.spec d.spec = false) →
    (gs.foldl (hostStep cfg ing tn tns) (s, ns0, ops0)).1 = s ∧
      writeFree (gs.foldl (hostStep cfg ing tn tns) (s, ns0, ops0)).2.2 =
        writeFree ops0 := by
  intro gs
  induction gs with
  | nil => intro s ns0 ops0 _; exact ⟨rfl, rfl⟩
  | cons g gs ih =>
      intro s ns0 ops0 hcv
      rw [List.foldl_cons]
      cases hb : buildDesiredPangolinResource cfg ing g.host g.paths tn tns with
      | error e =>
          have hbs : builds cfg ing tn tns (g :: gs) =
              builds cfg ing tn tns gs := by
            unfold builds; rw [List.filterMap_cons, hb]; rfl
          rw [show hostStep cfg ing tn tns (s, ns0, ops0) g =
              (s, ns0, ops0 ++ [Op.event "Warning" "InvalidHost" g.host])
            from by unfold hostStep; rw [hb]]
          obtain ⟨h1, h2⟩ := ih s ns0
            (ops0 ++ [Op.event "Warning" "InvalidHost" g.host])
            (fun d hd => hcv d (by rw [hbs]; exact hd))
          refine ⟨h1, ?_⟩
          rw [h2, writeFree_append,
            show writeFree [Op.event "Warning" "InvalidHost" g.host] = true
              from rfl, Bool.and_true]
      | ok d0 =>
          have hbs : builds cfg ing tn tns (g :: gs) =
              d0 :: builds cfg ing tn tns gs := by
            unfold builds; rw [List.filterMap_cons, hb]; rfl
          obtain ⟨e, he, hsc⟩ := hcv d0
            (by rw [hbs]; exact List.mem_cons_self _ _)
          have hrc : reconcilePR s d0 = (s, []) :=
            reconcilePR_noop s d0 e he hsc
          rw [show hostStep cfg ing tn tns (s, ns0, ops0) g =
              (s, ns0 ++ [d0.name], ops0 ++ [])
            from by unfold hostStep; rw [hb]; dsimp only; rw [hrc]]
          obtain ⟨h1, h2⟩ := ih s (ns0 ++ [d0.name]) (ops0 ++ [])
            (fun d hd => hcv d (by rw [hbs]; exact List.mem_cons_of_mem _ hd))
          refine ⟨h1, ?_⟩
          rw [h2, List.append_nil]

/-- Cleaning an already-cleaned store is a no-op with no operations. -/
theorem cleanupOrphans_idem (ing : Ingress) (names : List String)
    (store : List PangolinResource) :
    cleanupOrphans ing names (cleanupOrphans ing names store).1 =
      ((cleanupOrphans ing names store).1, []) := by
  unfold cleanupOrphans
  dsimp only
  rw [List.filter_filter, List.filter_filter]
  have h1 : store.filter
        (fun a => !isOrphan ing names a && !isOrphan ing names a) =
      store.filter (fun r => !isOrphan ing names r) :=
    List.filter_congr (fun r _ => by cases isOrphan ing names r <;> rfl)
  have h2 : store.filter
        (fun a => isOrphan ing names a && !isOrphan ing names a) = [] := by
    rw [show (fun a => isOrphan ing names a && !isOrphan ing names a) =
        (fun _ => false) from
      funext (fun r => by cases isOrphan ing names r <;> rfl)]
    exact List.filter_false store
  rw [h1, h2]
  rfl

/-- Orphan cleanup does not disturb lookups of names inside the
desired-name list. -/
theorem getPR_cleanup (ing : Ingress) (names : List String)
    (st : List PangolinResource) (ns n : String)
    (hmem : names.contains n = true) :
    getPR (cleanupOrphans ing names st).1 ns n = getPR st ns n := by
  unfold cleanupOrphans getPR
  dsimp only
  apply find?_filter_of_imp
  intro r hr
  simp only [Bool.and_eq_true, beq_iff_eq] at hr
  have hcont : names.contains r.name = true := by rw [hr.2]; exact hmem
  simp only [isOrphan, hcont, Bool.not_true, Bool.and_false, Bool.not_false]

/-- A labeled resource that survives orphan cleanup has its name in the
desired-name list. -/
theorem mem_cleanup (ing : Ingress) (names : List String)
    (st : List PangolinResource) (r : PangolinResource)
    (hr : r ∈ (cleanupOrphans ing names st).1)
    (hns : r.ns = ing.ns) (hu : r.labelUID = ing.uid) : r.name ∈ names := by
  unfold cleanupOrphans at hr
  dsimp only at hr
  have h2 := (List.mem_filter.mp hr).2
  simp only [isOrphan, hns, hu, beq_self_eq_true, Bool.true_and,
    Bool.not_eq_true', Bool.not_eq_false] at h2
  have h3 : names.contains r.name = true := by simpa using h2
  exact List.mem_of_elem_eq_true h3

/-- `processHosts` on an ingress without rules: warn and stop. -/
theorem processHosts_norules (cfg : Config) (ing : Ingress) (tn tns : String)
    (store : List PangolinResource) (hz : ing.rules.length = 0) :
    processHosts cfg ing tn tns store =
      (store, [Op.event "Warning" "NoRules" "Ingress has no rules defined"]) := by
  unfold processHosts
  rw [if_pos hz]

/-- `processHosts` when every rule was filtered out: emit the collection
warnings and stop — no cleanup happens. -/
theorem processHosts_nogroups (cfg : Config) (ing : Ingress) (tn tns : String)
    (store : List PangolinResource) (hz : ¬ing.rules.length = 0)
    (hgl : (collectHostPaths ing.rules).1.length = 0) :
    processHosts cfg ing tn tns store =
      (store, (collectHostPaths ing.rules).2) := by
  unfold processHosts
  rw [if_neg hz]
  dsimp only
  rw [if_pos hgl]

/-- The main branch of `processHosts`: host loop followed by orphan
cleanup. -/
theorem processHosts_main (cfg : Config) (ing : Ingress) (tn tns : String)
    (store : List PangolinResource) (hz : ¬ing.rules.length = 0)
    (hgl : ¬(collectHostPaths ing.rules).1.length = 0) :
    processHosts cfg ing tn tns store =
      ((cleanupOrphans ing
          ((collectHostPaths ing.rules).1.foldl (hostStep cfg ing tn tns)
            (store, [], (collectHostPaths ing.rules).2)).2.1
          ((collectHostPaths ing.rules).1.foldl (hostStep cfg ing tn tns)
            (store, [], (collectHostPaths ing.rules).2)).1).1,
       ((collectHostPaths ing.rules).1.foldl (hostStep cfg ing tn tns)
          (store, [], (collectHostPaths ing.rules).2)).2.2 ++
        (cleanupOrphans ing
          ((collectHostPaths ing.rules).1.foldl (hostStep cfg ing tn tns)
            (store, [], (collectHostPaths ing.rules).2)).2.1
          ((collectHostPaths ing.rules).1.foldl (hostStep cfg ing tn tns)
            (store, [], (collectHostPaths ing.rules).2)).1).2) := by
  unfold processHosts
  rw [if_neg hz]
  dsimp only
  rw [if_neg hgl]

/-- `Reconcile` on a managed ingress with a resolvable, validated tunnel
reduces to `processHosts`. -/
theorem reconcile_managed_eq (cfg : Config) (tunnels : List Tunnel)
    (ing : Ingress) (store : List PangolinResource) {tn tns : String}
    (hm : isManaged ing = true)
    (hr : resolveTunnel cfg ing = Except.ok tn)
    (hv : validateTunnel tunnels tn = some tns) :
    reconcile cfg tunnels ing store = processHosts cfg ing tn tns store := by
  unfold reconcile
  rw [hm]
  rw [if_neg (by decide : ¬((!true) = true))]
  rw [hr]
  dsimp only
  rw [hv]

/-- Running `processHosts` a second time on its own output changes nothing
and performs no create/update/delete operation, provided the desired names
of the pass are pairwise distinct. -/
theorem processHosts_idem (cfg : Config) (ing : Ingress) (tn tns : String)
    (store : List PangolinResource)
    (hnd : (desiredNamesOf cfg ing tn tns).Nodup) :
    (processHosts cfg ing tn tns (processHosts cfg ing tn tns store).1).1 =
      (processHosts cfg ing tn tns store).1 ∧
    writeFree
      (processHosts cfg ing tn tns (processHosts cfg ing tn tns store).1).2 =
      true := by
  by_cases hz : ing.rules.length = 0
  · rw [processHosts_norules cfg ing tn tns store hz]
    rw [processHosts_norules cfg ing tn tns _ hz]
    exact ⟨rfl, rfl⟩
  · by_cases hgl : (collectHostPaths ing.rules).1.length = 0
    · rw [processHosts_nogroups cfg ing tn tns store hz hgl]
      rw [processHosts_nogroups cfg ing tn tns _ hz hgl]
      exact ⟨rfl, writeFree_collect ing.rules⟩
    · have hnames1 : ((collectHostPaths ing.rules).1.foldl
            (hostStep cfg ing tn tns)
            (store, [], (collectHostPaths ing.rules).2)).2.1 =
          desiredNamesOf cfg ing tn tns := by
        rw [fold_names cfg ing tn tns (collectHostPaths ing.rules).1 store []
          (collectHostPaths ing.rules).2]
        rw [List.nil_append]
        rfl
      have hs1eq : (processHosts cfg ing tn tns store).1 =
          (cleanupOrphans ing (desiredNamesOf cfg ing tn tns)
            ((collectHostPaths ing.rules).1.foldl (hostStep cfg ing tn tns)
              (store, [], (collectHostPaths ing.rules).2)).1).1 := by
        rw [processHosts_main cfg ing tn tns store hz hgl, hnames1]
      have hinv : ∀ d ∈ builds cfg ing tn tns (collectHostPaths ing.rules).1,
          ∃ e, getPR (processHosts cfg ing tn tns store).1 d.ns d.name =
              some e ∧ specChanged e.spec d.spec = false := by
        intro d hd
        obtain ⟨e, he, hsc⟩ := fold_establishes cfg ing tn tns
          (collectHostPaths ing.rules).1 store []
          (collectHostPaths ing.rules).2 hnd d hd
        refine ⟨e, ?_, hsc⟩
        rw [hs1eq]
        rw [getPR_cleanup ing (desiredNamesOf cfg ing tn tns) _ d.ns d.name
          (List.elem_eq_true_of_mem
            (show d.name ∈ desiredNamesOf cfg ing tn tns from
              List.mem_map_of_mem (·.name) hd))]
        exact he
      have hnoop := fold_noop cfg ing tn tns (collectHostPaths ing.rules).1
        (processHosts cfg ing tn tns store).1 []
        (collectHostPaths ing.rules).2 hinv
      have hnames2 : ((collectHostPaths ing.rules).1.foldl
            (hostStep cfg ing tn tns)
            ((processHosts cfg ing tn tns store).1, [],
              (collectHostPaths ing.rules).2)).2.1 =
          desiredNamesOf cfg ing tn tns := by
        rw [fold_names cfg ing tn tns (collectHostPaths ing.rules).1 _ [] _]
        rw [List.nil_append]
        rfl
      have hclean2 : cleanupOrphans ing (desiredNamesOf cfg ing tn tns)
          (processHosts cfg ing tn tns store).1 =
          ((processHosts cfg ing tn tns store).1, []) := by
        rw [hs1eq]
        exact cleanupOrphans_idem ing (desiredNamesOf cfg ing tn tns) _
      rw [processHosts_main cfg ing tn tns
        (processHosts cfg ing tn tns store).1 hz hgl]
      constructor
      · dsimp only
        rw [hnames2, hnoop.1, hclean2]
      · dsimp only
        rw [hnames2, hnoop.1, hclean2]
        dsimp only
        rw [List.append_nil, hnoop.2]
        exact writeFree_collect ing.rules

/-- The operations of a single create/update reconciliation contain no
delete operation and no Deleted event. -/
theorem reconcilePR_counts (store : List PangolinResource)
    (d : PangolinResource) :
    ((reconcilePR store d).2).countP Op.isDelete = 0 ∧
    ((reconcilePR store d).2).countP Op.isDeletedEvent = 0 := by
  unfold reconcilePR
  cases hg : getPR store d.ns d.name with
  | none => exact ⟨rfl, rfl⟩
  | some e =>
      dsimp only
      by_cases hc : specChanged e.spec d.spec = true
      · rw [if_pos hc]
        exact ⟨rfl, rfl⟩
      · rw [if_neg hc]
        exact ⟨rfl, rfl⟩

/-- Empty-host warnings contain no delete operation and no Deleted
event. -/
theorem counts_emptyHostEvents (rules : List IngressRule) :
    (emptyHostEvents rules).countP Op.isDelete = 0 ∧
    (emptyHostEvents rules).countP Op.isDeletedEvent = 0 := by
  constructor <;>
  · rw [List.countP_eq_zero]
    intro op hop
    obtain ⟨r, _, rfl⟩ := List.mem_map.mp hop
    decide

/-- The host loop adds no delete operations and no Deleted events. -/
theorem fold_counts (cfg : Config) (ing : Ingress) (tn tns : String) :
    ∀ (gs : List HostPathGroup) s ns0 ops0,
    ((gs.foldl (hostStep cfg ing tn tns) (s, ns0, ops0)).2.2).countP
        Op.isDelete = ops0.countP Op.isDelete ∧
    ((gs.foldl (hostStep cfg ing tn tns) (s, ns0, ops0)).2.2).countP
        Op.isDeletedEvent = ops0.countP Op.isDeletedEvent := by
  intro gs
  induction gs with
  | nil => intro s ns0 ops0; exact ⟨rfl, rfl⟩
  | cons g gs ih =>
      intro s ns0 ops0
      rw [List.foldl_cons]
      cases hb : buildDesiredPangolinResource cfg ing g.host g.paths tn tns with
      | error e =>
          rw [show hostStep cfg ing tn tns (s, ns0, ops0) g =
              (s, ns0, ops0 ++ [Op.event "Warning" "InvalidHost" g.host])
            from by unfold hostStep; rw [hb]]
          obtain ⟨h1, h2⟩ := ih s ns0
            (ops0 ++ [Op.event "Warning" "InvalidHost" g.host])
          refine ⟨?_, ?_⟩
          · rw [h1, List.countP_append,
              show [Op.event "Warning" "InvalidHost" g.host].countP
                Op.isDelete = 0 from rfl, Nat.add_zero]
          · rw [h2, List.countP_append,
              show [Op.event "Warning" "InvalidHost" g.host].countP
                Op.isDeletedEvent = 0 from rfl, Nat.add_zero]
      | ok d0 =>
          rw [show hostStep cfg ing tn tns (s, ns0, ops0) g =
              ((reconcilePR s d0).1, ns0 ++ [d0.name],
                ops0 ++ (reconcilePR s d0).2)
            from by unfold hostStep; rw [hb]]
          obtain ⟨h1, h2⟩ := ih (reconcilePR s d0).1 (ns0 ++ [d0.name])
            (ops0 ++ (reconcilePR s d0).2)
          refine ⟨?_, ?_⟩
          · rw [h1, List.countP_append, (reconcilePR_counts s d0).1,
              Nat.add_zero]
          · rw [h2, List.countP_append, (reconcilePR_counts s d0).2,
              Nat.add_zero]

/-- Orphan cleanup performs one delete operation and emits one Deleted
event per orphaned resource. -/
theorem cleanup_counts (ing : Ingress) (names : List String)
    (store : List PangolinResource) :
    ((cleanupOrphans ing names store).2).countP Op.isDelete =
      (store.filter (isOrphan ing names)).length ∧
    ((cleanupOrphans ing names store).2).countP Op.isDeletedEvent =
      (store.filter (isOrphan ing names)).length := by
  unfold cleanupOrphans
  dsimp only
  generalize store.filter (isOrphan ing names) = l
  induction l with
  | nil => exact ⟨rfl, rfl⟩
  | cons r rest ih =>
      rw [List.foldr_cons]
      refine ⟨?_, ?_⟩
      · rw [List.countP_cons, List.countP_cons, ih.1,
          show (Op.isDelete (Op.event "Normal" "Deleted" r.name)) = false
            from rfl,
          show (Op.isDelete (Op.delete r.ns r.name)) = true from rfl]
        simp
      · rw [List.countP_cons, List.countP_cons, ih.2,
          show (Op.isDeletedEvent (Op.event "Normal" "Deleted" r.name)) = true
            from rfl,
          show (Op.isDeletedEvent (Op.delete r.ns r.name)) = false from rfl]
        simp

/-- C1 (amended): reconciling a managed ingress with a resolvable,
validated tunnel is idempotent provided the generated desired names of
the pass are pairwise distinct: running `Reconcile` again immediately
after a run leaves the store unchanged and logs only events — zero
create, update or delete operations.  The distinctness hypothesis is
necessary: the 4-byte name fingerprint can collide across hosts, in
which case the second run still performs updates (see
`c1_counterexample`). -/
theorem c1_reconcile_idempotent (cfg : Config) (tunnels : List Tunnel)
    (ing : Ingress) (store : List PangolinResource) (tn tns : String)
    (hm : isManaged ing = true)
    (hr : resolveTunnel cfg ing = Except.ok tn)
    (hv : validateTunnel tunnels tn = some tns)
    (hnd : (desiredNamesOf cfg ing tn tns).Nodup) :
    (reconcile cfg tunnels ing (reconcile cfg tunnels ing store).1).1 =
      (reconcile cfg tunnels ing store).1 ∧
    writeFree
      (reconcile cfg tunnels ing (reconcile cfg tunnels ing store).1).2 =
      true := by
  rw [reconcile_managed_eq cfg tunnels ing store hm hr hv]
  rw [reconcile_managed_eq cfg tunnels ing _ hm hr hv]
  exact processHosts_idem cfg ing tn tns store hnd

set_option maxRecDepth 1000000 in
/-- Witness for C1: a managed one-host ingress run twice from the empty
store — the hypotheses hold (the single desired name is trivially
distinct) and the second run is a write-free no-op. -/
theorem c1_reconcile_idempotent_witness :
    (isManaged ingOneHost = true ∧
     resolveTunnel cfgEx ingOneHost = Except.ok "default-tunnel" ∧
     validateTunnel tunnelsEx "default-tunnel" = some "pangolin-system" ∧
     (desiredNamesOf cfgEx ingOneHost "default-tunnel"
        "pangolin-system").Nodup) ∧
    ((reconcile cfgEx tunnelsEx ingOneHost
        (reconcile cfgEx tunnelsEx ingOneHost []).1).1 =
      (reconcile cfgEx tunnelsEx ingOneHost []).1 ∧
     writeFree (reconcile cfgEx tunnelsEx ingOneHost
        (reconcile cfgEx tunnelsEx ingOneHost []).1).2 = true) :=
  ⟨⟨rfl, rfl, rfl, by decide⟩,
   c1_reconcile_idempotent cfgEx tunnelsEx ingOneHost [] "default-tunnel"
     "pangolin-system" rfl rfl rfl (by decide)⟩

set_option maxRecDepth 1000000 in
/-- C1 counterexample: two distinct hosts whose 4-byte fingerprints
collide generate the same resource name, so the two hosts fight over one
object and the second run performs two update operations — reconciliation
is not idempotent without the distinct-names hypothesis. -/
theorem c1_counterexample :
    isManaged ingCollide = true ∧
    resolveTunnel cfgEx ingCollide = Except.ok "default-tunnel" ∧
    validateTunnel tunnelsEx "default-tunnel" = some "pangolin-system" ∧
    desiredNamesOf cfgEx ingCollide "default-tunnel" "pangolin-system" =
      ["pic-default-myapp-3d0f9aa9", "pic-default-myapp-3d0f9aa9"] ∧
    writeFree (reconcile cfgEx tunnelsEx ingCollide
        (reconcile cfgEx tunnelsEx ingCollide []).1).2 = false :=
  ⟨rfl, rfl, rfl, by decide, by decide⟩

/-- C4 (amended): when at least one host group survives collection,
orphan cleanup runs: every resource remaining in the store that carries
this ingress's namespace and owner-UID label has its name in the
desired-name set of the pass, and the operation log carries exactly as
many Deleted events as delete operations (one per deletion).  The
original claim's "in particular also with zero rules / all rules
filtered out" fails: in those cases the code returns before cleanup and
orphans survive (see `c4_counterexample`). -/
theorem c4_orphan_cleanup (cfg : Config) (tunnels : List Tunnel)
    (ing : Ingress) (store : List PangolinResource) (tn tns : String)
    (hm : isManaged ing = true)
    (hr : resolveTunnel cfg ing = Except.ok tn)
    (hv : validateTunnel tunnels tn = some tns)
    (hgl : ¬(collectHostPaths ing.rules).1.length = 0) :
    (∀ r ∈ (reconcile cfg tunnels ing store).1,
        r.ns = ing.ns → r.labelUID = ing.uid →
        r.name ∈ desiredNamesOf cfg ing tn tns) ∧
    (reconcile cfg tunnels ing store).2.countP Op.isDelete =
      (reconcile cfg tunnels ing store).2.countP Op.isDeletedEvent := by
  have hz : ¬ing.rules.length = 0 := by
    intro h0
    apply hgl
    rw [List.length_eq_zero] at h0
    rw [h0]
    rfl
  rw [reconcile_managed_eq cfg tunnels ing store hm hr hv]
  rw [processHosts_main cfg ing tn tns store hz hgl]
  have hnames1 : ((collectHostPaths ing.rules).1.foldl
        (hostStep cfg ing tn tns)
        (store, [], (collectHostPaths ing.rules).2)).2.1 =
      desiredNamesOf cfg ing tn tns := by
    rw [fold_names cfg ing tn tns (collectHostPaths ing.rules).1 store []
      (collectHostPaths ing.rules).2]
    rw [List.nil_append]
    rfl
  rw [hnames1]
  constructor
  · intro r hrmem hns hu
    exact mem_cleanup ing (desiredNamesOf cfg ing tn tns) _ r hrmem hns hu
  · dsimp only
    rw [List.countP_append, List.countP_append]
    have hf := fold_counts cfg ing tn tns (collectHostPaths ing.rules).1
      store [] (collectHostPaths ing.rules).2
    rw [hf.1, hf.2]
    have hc := cleanup_counts ing (desiredNamesOf cfg ing tn tns)
      ((collectHostPaths ing.rules).1.foldl (hostStep cfg ing tn tns)
        (store, [], (collectHostPaths ing.rules).2)).1
    rw [hc.1, hc.2]
    rw [show (collectHostPaths ing.rules).2 = emptyHostEvents ing.rules
      from by rw [collectHostPaths_eq]; exact collectLoop_events ing.rules []]
    rw [(counts_emptyHostEvents ing.rules).1,
      (counts_emptyHostEvents ing.rules).2]

set_option maxRecDepth 1000000 in
/-- Witness for C4: one valid host and a labeled orphan in the store —
the orphan is deleted (with one Deleted event) and only the desired-name
resource survives. -/
theorem c4_orphan_cleanup_witness :
    (isManaged ingOneHost = true ∧
     resolveTunnel cfgEx ingOneHost = Except.ok "default-tunnel" ∧
     validateTunnel tunnelsEx "default-tunnel" = some "pangolin-system" ∧
     ¬(collectHostPaths ingOneHost.rules).1.length = 0) ∧
    ((∀ r ∈ (reconcile cfgEx tunnelsEx ingOneHost [orphanEx]).1,
        r.ns = ingOneHost.ns → r.labelUID = ingOneHost.uid →
        r.name ∈ desiredNamesOf cfgEx ingOneHost "default-tunnel"
          "pangolin-system") ∧
     (reconcile cfgEx tunnelsEx ingOneHost [orphanEx]).2.countP
         Op.isDelete =
       (reconcile cfgEx tunnelsEx ingOneHost [orphanEx]).2.countP
         Op.isDeletedEvent) :=
  ⟨⟨rfl, rfl, rfl, by decide⟩,
   c4_orphan_cleanup cfgEx tunnelsEx ingOneHost [orphanEx] "default-tunnel"
     "pangolin-system" rfl rfl rfl (by decide)⟩

set_option maxRecDepth 100000 in
/-- C4 counterexample: with zero rules the reconciler returns before
orphan cleanup, so a labeled resource whose name is not in the (empty)
desired-name set survives and no delete is issued. -/
theorem c4_counterexample :
    isManaged ingNoRules = true ∧
    resolveTunnel cfgEx ingNoRules = Except.ok "default-tunnel" ∧
    validateTunnel tunnelsEx "default-tunnel" = some "pangolin-system" ∧
    desiredNamesOf cfgEx ingNoRules "default-tunnel" "pangolin-system" =
      [] ∧
    orphanEx.ns = ingNoRules.ns ∧ orphanEx.labelUID = ingNoRules.uid ∧
    orphanEx ∈ (reconcile cfgEx tunnelsEx ingNoRules [orphanEx]).1 ∧
    (reconcile cfgEx tunnelsEx ingNoRules [orphanEx]).2.countP
      Op.isDelete = 0 :=
  ⟨rfl, rfl, rfl, by decide, rfl, rfl, by decide, by decide⟩

end PIC
